import Mathlib

/-!
# Verification of the transformation orchestrator

A shallow embedding of the SQL transformation orchestrator
(`src/transformations/orchestrator.py` and `src/transformations/models.py`):
module discovery, dependency resolution by Kahn's algorithm, source-file
validation, dry-run preview and live execution, together with proofs of the
ordering, determinism, cycle-detection, fail-fast and isolation properties.

Python dictionaries are modelled as insertion-ordered association lists,
machine integers as `Int`, raised exceptions as an `OrchError` sum type, and
the effectful boundary (filesystem, DuckDB engine, console) as explicit
record parameters and event traces.
-/

namespace DataLake


/-- `models.py`: metadata record for one SQL transformation module. -/
structure SQLModule where
  name : String
  layer : String
  file_path : String
  depends_on : List String
  description : Option String := none
  enabled : Bool := true
  requires_vpn : Bool := false
  source_files : List String := []
deriving Repr, DecidableEq

/-- `SQLModule.get_dependencies`: qualify each dependency; a name containing
`/` (tested on the character list) is used as-is, otherwise it is prefixed
with the module's own layer. -/
def SQLModule.get_dependencies (m : SQLModule) : List String :=
  m.depends_on.map (fun dep =>
    if dep.toList.contains '/' then dep else m.layer ++ "/" ++ dep)

/-- `SQLModule.get_qualified_name`: `"{layer}/{name}"`. -/
def SQLModule.get_qualified_name (m : SQLModule) : String :=
  m.layer ++ "/" ++ m.name

/-- `models.py`: process-wide transformation configuration. -/
structure TransformationConfig where
  db_path : String := "data_lake/mca_env_base.duckdb"
  sql_root : String := "src/transformations/sql"
  layers : List String := ["bronze", "silver", "gold"]

/-- `TransformationConfig.get_layer_path`. -/
def TransformationConfig.get_layer_path (cfg : TransformationConfig) (layer : String) : String :=
  cfg.sql_root ++ "/" ++ layer

/-- `TransformationConfig.get_schema_path`. -/
def TransformationConfig.get_schema_path (cfg : TransformationConfig) (layer : String) : String :=
  cfg.get_layer_path layer ++ "/_schema.yaml"

/-- The exceptions raised by the orchestrator, one constructor per raise
site. `sqlRootNotFound`, `sqlFileNotFound` and `dbNotFound` are the
`FileNotFoundError`s, `invalidLayer` the `ValueError`,
`circularDependency`, `missingSourceFiles` and `moduleExecutionFailed`
the `RuntimeError`s, `engineFailure` a `duckdb.Error` from the engine,
and `attributeError` (a `.get` on a non-mapping metadata value) and
`validationError` (pydantic rejecting ill-typed metadata for a module)
the uncaught errors of the discovery loop. -/
inductive OrchError where
  | sqlRootNotFound (msg : String)
  | invalidLayer (msg : String)
  | circularDependency (msg : String)
  | missingSourceFiles (msg : String)
  | sqlFileNotFound (msg : String)
  | dbNotFound (msg : String)
  | engineFailure (msg : String)
  | moduleExecutionFailed (msg : String) (cause : OrchError)
  | attributeError (attr : String)
  | validationError (stem : String)
deriving Repr, DecidableEq

/-! ## Dependency resolution (`_sort_by_dependencies`)

The Python function receives a dict `modules : qualified name → SQLModule`;
we receive the same mapping as an insertion-ordered association list. -/

/-- Membership test `dep in modules` on the qualified-name keys. -/
def isKey (modules : List (String × SQLModule)) (dep : String) : Bool :=
  modules.any (fun p => p.1 == dep)

/-- The edges inserted into `graph`, in insertion order: iterating the
mapping, each module contributes one edge `(dep, qualified_name)` per
qualified dependency that is itself a key of the mapping. -/
def moduleEdges (modules : List (String × SQLModule)) : List (String × String) :=
  modules.flatMap (fun p =>
    (p.2.get_dependencies.filter (fun dep => isKey modules dep)).map (fun dep => (dep, p.1)))

/-- `graph[d]`: the dependents of `d`, in edge-insertion order. -/
def graphAdj (modules : List (String × SQLModule)) (d : String) : List String :=
  ((moduleEdges modules).filter (fun e => e.1 == d)).map (fun e => e.2)

/-- `in_degree`: one entry per key of the mapping, in insertion order; a
module's in-degree is the number of its qualified dependencies that are keys
of the mapping (counted with multiplicity, as the Python `+= 1` does). -/
def buildInDegree (modules : List (String × SQLModule)) : List (String × Int) :=
  modules.map (fun p =>
    (p.1, ((p.2.get_dependencies.filter (fun dep => isKey modules dep)).length : Int)))

/-- Look up a key's current in-degree (`in_degree[k]`; every key queried by
the algorithm is present, so the default is never reached on real runs). -/
def degOf (deg : List (String × Int)) (k : String) : Int :=
  ((deg.find? (fun p => p.1 == k)).map Prod.snd).getD 0

/-- `in_degree[neighbor] -= 1`. -/
def decDegree (deg : List (String × Int)) (k : String) : List (String × Int) :=
  deg.map (fun p => if p.1 == k then (p.1, p.2 - 1) else p)

/-- The inner `for neighbor in graph[current]` loop: decrement each
neighbor's in-degree in order, enqueueing a neighbor the moment its degree
reaches exactly `0`. Returns the updated degrees and queue. -/
def processNeighbors (deg : List (String × Int)) (queue : List String) :
    List String → List (String × Int) × List String
  | [] => (deg, queue)
  | n :: rest =>
    let deg' := decDegree deg n
    let queue' := if degOf deg' n == 0 then queue ++ [n] else queue
    processNeighbors deg' queue' rest

/-- Fuel bound for the `while queue` loop: the loop pops one node per
iteration and every enqueue is paired with a positive in-degree reaching
zero, so the sum of the positive in-degrees plus the queue length bounds
the number of iterations. -/
def posSum (deg : List (String × Int)) : Nat :=
  (deg.map (fun p => p.2.toNat)).sum

/-- The `while queue:` loop of Kahn's algorithm, with explicit fuel.
Any fuel of at least `posSum deg + queue.length` makes the loop reach an
empty queue before the fuel runs out (the zero-fuel case of
`kahnFuel_spec` forces `queue = []`, and `step_inv`'s measure bound feeds
its induction), so with the fuel `sortedNames` passes, this is an
encoding of the `while`, not a behavioural change. -/
def kahnFuel (g : String → List String) :
    Nat → List (String × Int) → List String → List String → List String
  | 0, _, _, acc => acc
  | _ + 1, _, [], acc => acc
  | fuel + 1, deg, current :: rest, acc =>
    let s := processNeighbors deg rest (g current)
    kahnFuel g fuel s.1 s.2 (acc ++ [current])

/-- The initial queue: keys whose in-degree is zero, in insertion order. -/
def initialQueue (modules : List (String × SQLModule)) : List String :=
  ((buildInDegree modules).filter (fun p => p.2 == 0)).map Prod.fst

/-- `sorted_names` as computed by `_sort_by_dependencies`. -/
def sortedNames (modules : List (String × SQLModule)) : List String :=
  let deg := buildInDegree modules
  kahnFuel (graphAdj modules) (posSum deg + (initialQueue modules).length)
    deg (initialQueue modules) []

/-- `_sort_by_dependencies`: topological sort; raises the circular-dependency
`RuntimeError` when the sorted list is shorter than the input mapping,
otherwise returns `[modules[name] for name in sorted_names if name in modules]`. -/
def sortByDependencies (modules : List (String × SQLModule)) :
    Except OrchError (List SQLModule) :=
  let names := sortedNames modules
  if names.length ≠ modules.length then
    .error (.circularDependency "Circular dependency detected in modules")
  else
    .ok (names.filterMap (fun n => (modules.find? (fun p => p.1 == n)).map Prod.snd))

/-! ## Counting helpers (ghost definitions for the correctness proofs) -/

/-- Number of edges of `E` whose target is `k`. -/
def inCount (E : List (String × String)) (k : String) : Nat :=
  E.countP (fun e => e.2 == k)

/-- Number of edges of `E` with target `k` whose source lies in `acc`. -/
def inCountFrom (E : List (String × String)) (acc : List String) (k : String) : Nat :=
  E.countP (fun e => e.2 == k && decide (e.1 ∈ acc))

/-- Multiplicity of the edge `(a, k)` in `E`. -/
def edgeCount (E : List (String × String)) (a k : String) : Nat :=
  E.countP (fun e => e.1 == a && e.2 == k)

/-- The targets of the edges of `E` with source `d`, in order. -/
def outList (E : List (String × String)) (d : String) : List String :=
  ((E.filter (fun e => e.1 == d)).map (fun e => e.2))

/-! ## The Kahn loop invariant -/

/-- Invariant of the `while queue` loop of `_sort_by_dependencies`: the
degree table tracks, for each key, its in-edges not yet consumed by emitted
nodes; emitted and queued nodes are exactly those of degree zero, pairwise
distinct; and the emitted prefix respects every edge. -/
structure KahnInv (E : List (String × String)) (K : List String)
    (deg : List (String × Int)) (queue acc : List String) : Prop where
  keys_eq : deg.map Prod.fst = K
  deg_eq : ∀ k ∈ K, degOf deg k = (inCount E k : Int) - (inCountFrom E acc k : Int)
  nodup : (acc ++ queue).Nodup
  mem_sub : ∀ x ∈ acc ++ queue, x ∈ K
  zero_iff : ∀ k ∈ K, (k ∈ acc ∨ k ∈ queue) ↔ degOf deg k = 0
  ordered : ∀ e ∈ E, e.2 ∈ acc → e.1 ∈ acc ∧ acc.indexOf e.1 < acc.indexOf e.2

/-! ## Cycles: completeness and soundness of the length check -/

/-- `a` is a (qualified, in-set) dependency of `b`. -/
def edgeRel (m : List (String × SQLModule)) (a b : String) : Prop :=
  (a, b) ∈ moduleEdges m

/-- Acyclicity of the dependency graph restricted to the given mapping. -/
def AcyclicModules (m : List (String × SQLModule)) : Prop :=
  ∀ n, ¬ Relation.TransGen (edgeRel m) n n

/-- Pick (executably) the source of some unemitted in-edge of `k`. -/
def predSource (E : List (String × String)) (out : List String) (k : String) : String :=
  match E.find? (fun e => e.2 == k && !(out.contains e.1)) with
  | some e => e.1
  | none => k

/-! ## The execution boundary (`_execute_sql_file`, `_execute_modules`) -/

/-- Events observable at the database boundary. -/
inductive DbEvent where
  | connect (dbPath : String)
  | loadExtension (ext : String)
  | execSql (path : String)
deriving Repr, DecidableEq

/-- The orchestrator's environment: which paths exist on the filesystem and
what the engine does with the SQL text of a given file. -/
structure Env where
  pathExists : String → Bool
  runSql : String → Except String Unit

/-- `_execute_sql_file`: check the SQL file and database exist, then
connect, load the `spatial` and `postgres` extensions, and execute the
file's SQL. Returns the events at the database boundary and the outcome. -/
def executeSqlFile (env : Env) (cfg : TransformationConfig) (sqlFile : String) :
    List DbEvent × Except OrchError Unit :=
  if env.pathExists sqlFile = false then
    ([], .error (.sqlFileNotFound ("SQL file not found: " ++ sqlFile)))
  else if env.pathExists cfg.db_path = false then
    ([], .error (.dbNotFound ("Database not found: " ++ cfg.db_path)))
  else
    ([.connect cfg.db_path, .loadExtension "spatial", .loadExtension "postgres",
      .execSql sqlFile],
      match env.runSql sqlFile with
      | .ok () => .ok ()
      | .error e => .error (.engineFailure e))

/-- `_execute_modules`: run each module's SQL file in order; on the first
failure, stop and wrap the error as `Module execution failed: ...`,
preserving the cause. -/
def executeModules (env : Env) (cfg : TransformationConfig) :
    List SQLModule → List DbEvent × Except OrchError Unit
  | [] => ([], .ok ())
  | mod :: rest =>
    let r := executeSqlFile env cfg mod.file_path
    match r.2 with
    | .ok _ =>
      let rs := executeModules env cfg rest
      (r.1 ++ rs.1, rs.2)
    | .error e =>
      (r.1, .error (.moduleExecutionFailed
        ("Module execution failed: " ++ mod.get_qualified_name) e))

/-! ## Source validation (`validate_sources`) -/

/-- The complete list of `(module name, missing source file)` pairs, across
all modules, in declaration order. -/
def missingFiles (env : Env) (modules : List SQLModule) : List (String × String) :=
  modules.flatMap (fun mod =>
    (mod.source_files.filter (fun f => env.pathExists f = false)).map
      (fun f => (mod.name, f)))

/-- `validate_sources`: collect every missing pair, print them all, and
raise with the count; succeed with an informational line otherwise. -/
def validateSources (env : Env) (modules : List SQLModule) :
    List String × Except OrchError Unit :=
  let missing := missingFiles env modules
  if missing.isEmpty then
    (["Validation passed: All source files present for " ++
        toString modules.length ++ " modules"], .ok ())
  else
    ("Validation failed: Missing source files" ::
        missing.map (fun p => p.1 ++ ": " ++ p.2),
      .error (.missingSourceFiles
        (toString missing.length ++ " source file(s) missing")))

/-! ## Dry-run preview (`_preview_execution`) -/

/-- The console lines printed for one module of the execution plan
(1-based position, qualified name, truthy description, raw dependency
list, VPN warning). -/
def previewLines (i : Nat) (mod : SQLModule) : List String :=
  [toString (i + 1) ++ ". " ++ mod.get_qualified_name] ++
  (match mod.description with
   | some d => if d = "" then [] else [d]
   | none => []) ++
  (if mod.depends_on.isEmpty then [] else
    ["Depends on: " ++ String.intercalate ", " mod.depends_on]) ++
  (if mod.requires_vpn then ["WARNING: Requires VPN connection"] else [])

/-- `_preview_execution`: the execution plan, rendered to the console. -/
def previewExecution (modules : List SQLModule) : List String :=
  ("Execution Plan (" ++ toString modules.length ++ " modules):") ::
  modules.enum.flatMap (fun p => previewLines p.1 p.2)

/-! ## Layer execution (`execute_layer`, `execute_all`) -/

/-- The same-layer, enabled modules handed to the resolver and executor. -/
def layerModules (modules : List (String × SQLModule)) (layer : String) :
    List (String × SQLModule) :=
  modules.filter (fun p => p.2.layer == layer && p.2.enabled)

/-- `execute_layer` on an already-discovered module mapping. Returns the
console lines, the events at the database boundary, and the outcome.
(The Python invalid-layer message continues `. Must be one of {layers}`.) -/
def executeLayer (env : Env) (cfg : TransformationConfig)
    (modules : List (String × SQLModule)) (layer : String)
    (dry_run validate : Bool) : List String × List DbEvent × Except OrchError Unit :=
  if (cfg.layers.contains layer) = false then
    ([], [], .error (.invalidLayer ("Invalid layer: " ++ layer)))
  else
    let lm := layerModules modules layer
    if lm.isEmpty then
      (["No enabled modules found for " ++ layer ++ " layer"], [], .ok ())
    else
      match sortByDependencies lm with
      | .error e => ([], [], .error e)
      | .ok sorted =>
        let v : List String × Except OrchError Unit :=
          if validate && (layer == "bronze") then validateSources env sorted
          else ([], .ok ())
        match v.2 with
        | .error e => (v.1, [], .error e)
        | .ok _ =>
          if dry_run then
            (v.1 ++ previewExecution sorted, [], .ok ())
          else
            let r := executeModules env cfg sorted
            (v.1, r.1, r.2)

/-- The loop body of `execute_all`: iterate the configured layers in
declared order; a raised error aborts the remaining layers. -/
def executeLayers (env : Env) (cfg : TransformationConfig)
    (modules : List (String × SQLModule)) (dry_run validate : Bool) :
    List String → List String × List DbEvent × Except OrchError Unit
  | [] => ([], [], .ok ())
  | layer :: rest =>
    let r := executeLayer env cfg modules layer dry_run validate
    match r.2.2 with
    | .ok _ =>
      let rs := executeLayers env cfg modules dry_run validate rest
      ((layer.toUpper ++ " Layer") :: r.1 ++ rs.1, r.2.1 ++ rs.2.1, rs.2.2)
    | .error e => ((layer.toUpper ++ " Layer") :: r.1, r.2.1, .error e)

/-- `execute_all`: Bronze → Silver → Gold in the configured order. -/
def executeAll (env : Env) (cfg : TransformationConfig)
    (modules : List (String × SQLModule)) (dry_run validate : Bool) :
    List String × List DbEvent × Except OrchError Unit :=
  executeLayers env cfg modules dry_run validate cfg.layers

/-! ## Module discovery (`discover_modules`, `_load_schema_metadata`) -/

/-- One module's metadata from `_schema.yaml`; every field defaulted, as
the `.get(...)` calls in `discover_modules` default them. -/
structure MetadataEntry where
  depends_on : List String := []
  description : Option String := none
  enabled : Bool := true
  requires_vpn : Bool := false
  source_files : List String := []
deriving Repr, DecidableEq

/-- The value one module's key holds in a parsed `_schema.yaml` mapping:
a sub-mapping whose field values are well-typed for the pydantic model
(`fields`), a sub-mapping with an ill-typed field value, on which the
`SQLModule(...)` constructor raises `ValidationError` (`illTyped`), or a
non-mapping value such as the `None` a bare `module_name:` line yields, on
which `metadata.get("depends_on", [])` raises `AttributeError`
(`nonMapping`). -/
inductive YamlEntry where
  | fields (meta : MetadataEntry)
  | illTyped
  | nonMapping
deriving Repr, DecidableEq

/-- State of a `_schema.yaml` file on disk: missing, failing YAML parse
(`yaml.YAMLError`), parsing to a mapping, or parsing successfully to a
truthy non-mapping document (a list, a string, ...), on which the
`schema_metadata.get(module_name, {})` of the discovery loop raises
`AttributeError`. -/
inductive YamlFile where
  | absent
  | malformed
  | parsed (entries : List (String × YamlEntry))
  | parsedNonMapping

/-- What `_load_schema_metadata` hands back to the discovery loop: the
parsed mapping, or the non-mapping document passed through unchanged —
only `yaml.YAMLError` is caught, nothing validates the parse result. -/
inductive SchemaMetadata where
  | mapping (entries : List (String × YamlEntry))
  | nonMapping
deriving Repr, DecidableEq

/-- The filesystem as discovery sees it: the SQL root, the layer
directories, the glob of `*.sql` stems per layer directory (in glob
order), and each layer's `_schema.yaml`. -/
structure DiscoveryFS where
  rootExists : Bool
  dirExists : String → Bool
  sqlStems : String → List String
  schemaYaml : String → YamlFile

/-- `_load_schema_metadata`: an absent file gives no metadata silently; a
file failing YAML parse gives no metadata with a parse warning (the only
caught error); an empty parse result degrades to the empty mapping via
`or {}`; a truthy non-mapping parse result is returned as-is. -/
def loadSchemaMetadata (fs : DiscoveryFS) (cfg : TransformationConfig)
    (layer : String) : List String × SchemaMetadata :=
  match fs.schemaYaml (cfg.get_schema_path layer) with
  | .absent => ([], .mapping [])
  | .malformed => (["Failed to parse " ++ cfg.get_schema_path layer], .mapping [])
  | .parsed entries => ([], .mapping entries)
  | .parsedNonMapping => ([], .nonMapping)

/-- One iteration of the discovery loop for one `.sql` stem:
`metadata = schema_metadata.get(module_name, {})` (defaults when the stem
has no entry), then the `metadata.get(...)` field reads — raising
`AttributeError` on a non-mapping entry — then the `SQLModule(...)`
construction — raising `ValidationError` on ill-typed field values. -/
def moduleFor (cfg : TransformationConfig) (layer stem : String)
    (md : List (String × YamlEntry)) : Except OrchError SQLModule :=
  match (md.find? (fun p => p.1 == stem)).map Prod.snd with
  | some .nonMapping => .error (.attributeError "get")
  | some .illTyped => .error (.validationError stem)
  | some (.fields meta) =>
    .ok { name := stem
          layer := layer
          file_path := cfg.get_layer_path layer ++ "/" ++ stem ++ ".sql"
          depends_on := meta.depends_on
          description := meta.description
          enabled := meta.enabled
          requires_vpn := meta.requires_vpn
          source_files := meta.source_files }
  | none =>
    .ok { name := stem
          layer := layer
          file_path := cfg.get_layer_path layer ++ "/" ++ stem ++ ".sql"
          depends_on := [] }

/-- The discovery loop over the globbed stems of one layer, stopping at
the first uncaught per-stem error. -/
def discoverStems (cfg : TransformationConfig) (layer : String)
    (md : List (String × YamlEntry)) :
    List String → Except OrchError (List (String × SQLModule))
  | [] => .ok []
  | stem :: rest =>
    match moduleFor cfg layer stem md with
    | .error e => .error e
    | .ok mod =>
      match discoverStems cfg layer md rest with
      | .error e => .error e
      | .ok mods => .ok ((layer ++ "/" ++ stem, mod) :: mods)

/-- The modules discovered for one layer: nothing when the layer directory
is missing; with a non-mapping schema document, the first stem's
`schema_metadata.get` raises `AttributeError` (no stems, no raise);
otherwise one module per globbed `.sql` stem, aborting on the first
ill-typed entry. -/
def discoverLayer (fs : DiscoveryFS) (cfg : TransformationConfig)
    (layer : String) : Except OrchError (List (String × SQLModule)) :=
  if fs.dirExists (cfg.get_layer_path layer) = false then .ok []
  else
    match (loadSchemaMetadata fs cfg layer).2 with
    | .nonMapping =>
      match fs.sqlStems (cfg.get_layer_path layer) with
      | [] => .ok []
      | _ :: _ => .error (.attributeError "get")
    | .mapping md => discoverStems cfg layer md (fs.sqlStems (cfg.get_layer_path layer))

/-- The discovery loop over the configured layers; an uncaught error in
any layer aborts the whole discovery. -/
def discoverLayers (fs : DiscoveryFS) (cfg : TransformationConfig) :
    List String → Except OrchError (List (String × SQLModule))
  | [] => .ok []
  | layer :: rest =>
    match discoverLayer fs cfg layer with
    | .error e => .error e
    | .ok ms =>
      match discoverLayers fs cfg rest with
      | .error e => .error e
      | .ok rests => .ok (ms ++ rests)

/-- `discover_modules`: `FileNotFoundError` when the SQL root is missing,
otherwise the qualified-name mapping over all configured layers — or the
first uncaught metadata error. -/
def discoverModules (fs : DiscoveryFS) (cfg : TransformationConfig) :
    Except OrchError (List (String × SQLModule)) :=
  if fs.rootExists = false then
    .error (.sqlRootNotFound ("SQL root directory not found: " ++ cfg.sql_root))
  else
    discoverLayers fs cfg cfg.layers

/-- Does `sub` occur as a contiguous substring of `s` (checked on the
character lists)? Used to state whether an error message names a layer. -/
def containsSub (hay needle : List Char) : Bool :=
  match hay with
  | [] => needle.isEmpty
  | _ :: t => needle.isPrefixOf hay || containsSub t needle

/-- Whether the string `msg` mentions `layer` (as a substring). -/
def mentions (msg layer : String) : Bool :=
  containsSub msg.toList layer.toList

/-! ## Enqueue batches: the tie-break order of the loop -/

/-- Instrumented mirror of `kahnFuel` that records, for each iteration, the
batch of nodes enqueued while processing the popped node. Together with the
initial queue, these batches list the nodes in the order they enter the
FIFO queue — which is the order they are emitted. -/
def kahnBatchesFuel (g : String → List String) :
    Nat → List (String × Int) → List String → List (List String)
  | 0, _, _ => []
  | _ + 1, _, [] => []
  | fuel + 1, deg, current :: rest =>
    let s := processNeighbors deg rest (g current)
    (s.2.drop rest.length) :: kahnBatchesFuel g fuel s.1 s.2

/-- The enqueue batches of the run of `_sort_by_dependencies`. -/
def kahnBatches (m : List (String × SQLModule)) : List (List String) :=
  kahnBatchesFuel (graphAdj m) (posSum (buildInDegree m) + (initialQueue m).length)
    (buildInDegree m) (initialQueue m)

/-- Concrete witnesses: an acyclic bronze mapping (`load_b` after `load_a`). -/
def wModA : SQLModule :=
  { name := "load_a", layer := "bronze", file_path := "sql/bronze/load_a.sql",
    depends_on := [] }

def wModB : SQLModule :=
  { name := "load_b", layer := "bronze", file_path := "sql/bronze/load_b.sql",
    depends_on := ["load_a"] }

def wMap : List (String × SQLModule) :=
  [("bronze/load_a", wModA), ("bronze/load_b", wModB)]

def wRank : String → Nat := fun n => if n = "bronze/load_b" then 1 else 0

/-- Concrete witnesses: the cyclic bronze mapping x ↔ y. -/
def cycModX : SQLModule :=
  { name := "x", layer := "bronze", file_path := "x.sql", depends_on := ["y"] }

def cycModY : SQLModule :=
  { name := "y", layer := "bronze", file_path := "y.sql", depends_on := ["x"] }

def cycMap : List (String × SQLModule) :=
  [("bronze/x", cycModX), ("bronze/y", cycModY)]

/-- An environment in which every path exists and all SQL succeeds. -/
def allOkEnv : Env :=
  { pathExists := fun _ => true, runSql := fun _ => .ok () }

/-- Concrete witness mapping for C10: one silver module depending on a
name with no module. -/
def w10Mod : SQLModule :=
  { name := "a", layer := "silver", file_path := "a.sql", depends_on := ["ghost"] }

def w10Map : List (String × SQLModule) := [("silver/a", w10Mod)]

/-- Concrete witnesses for the executor: three modules, the engine failing
on the second file. -/
def c3ModA : SQLModule :=
  { name := "m_one", layer := "bronze", file_path := "a.sql", depends_on := [] }

def c3ModB : SQLModule :=
  { name := "m_two", layer := "bronze", file_path := "b.sql", depends_on := [] }

def c3ModC : SQLModule :=
  { name := "m_three", layer := "bronze", file_path := "c.sql", depends_on := [] }

def c3Env : Env :=
  { pathExists := fun _ => true,
    runSql := fun p => if p = "b.sql" then .error "Parser Error" else .ok () }

/-- Concrete witnesses for the validator: two modules, each declaring one
missing file. -/
def c6ModX : SQLModule :=
  { name := "x", layer := "bronze", file_path := "x.sql", depends_on := [],
    source_files := ["missing1.csv"] }

def c6ModY : SQLModule :=
  { name := "y", layer := "bronze", file_path := "y.sql", depends_on := [],
    source_files := ["missing2.csv"] }

def c6Env : Env :=
  { pathExists := fun _ => false, runSql := fun _ => .ok () }

/-- An environment in which nothing exists and all SQL fails: dry-run must
still touch nothing. -/
def c7Env : Env :=
  { pathExists := fun _ => false, runSql := fun _ => .error "Catalog Error" }

/-- A mapping whose bronze layer is cyclic but whose silver layer is fine:
`execute_all` must fail in bronze and never touch silver. -/
def c4Map : List (String × SQLModule) :=
  [("bronze/x", cycModX), ("bronze/y", cycModY), ("silver/clean", w10Mod)]

/-- Concrete discovery filesystem for C8: one bronze module `off` whose
metadata disables it. -/
def c8FS : DiscoveryFS :=
  { rootExists := true
    dirExists := fun p => p = "src/transformations/sql/bronze"
    sqlStems := fun p => if p = "src/transformations/sql/bronze" then ["off"] else []
    schemaYaml := fun p =>
      if p = "src/transformations/sql/bronze/_schema.yaml" then
        .parsed [("off", .fields { enabled := false })]
      else .absent }

/-- The module the C8 filesystem discovers for `bronze/off`. -/
def c8Mod : SQLModule :=
  { name := "off", layer := "bronze",
    file_path := "src/transformations/sql/bronze" ++ "/" ++ "off" ++ ".sql",
    depends_on := [], enabled := false }

theorem graphAdj_eq_outList (m : List (String × SQLModule)) (d : String) :
    graphAdj m d = outList (moduleEdges m) d := rfl

theorem inCountFrom_nil (E : List (String × String)) (k : String) :
    inCountFrom E [] k = 0 := by
  simp [inCountFrom]

theorem filter_target_sub (E : List (String × String)) (acc : List String) (k : String) :
    List.Sublist (E.filter (fun e => e.2 == k && decide (e.1 ∈ acc)))
      (E.filter (fun e => e.2 == k)) := by
  apply List.monotone_filter_right
  intro e he
  exact (Bool.and_elim_left he)

theorem inCountFrom_le_inCount (E : List (String × String)) (acc : List String) (k : String) :
    inCountFrom E acc k ≤ inCount E k := by
  rw [inCountFrom, inCount, List.countP_eq_length_filter, List.countP_eq_length_filter]
  exact (filter_target_sub E acc k).length_le

theorem inCountFrom_append_single (E : List (String × String)) (acc : List String)
    (c k : String) (hc : c ∉ acc) :
    inCountFrom E (acc ++ [c]) k = inCountFrom E acc k + edgeCount E c k := by
  induction E with
  | nil => simp [inCountFrom, edgeCount]
  | cons e E ih =>
    simp only [inCountFrom, edgeCount, List.countP_cons] at *
    by_cases h1 : e.1 = c <;> by_cases h2 : e.2 = k <;> by_cases hA : e.1 ∈ acc
    · exact absurd (h1 ▸ hA) hc
    · simp only [ih]; simp [h1, h2, hA, hc] <;> omega
    · exact absurd (h1 ▸ hA) hc
    · simp only [ih]; simp [h1, h2, hA, hc] <;> omega
    · simp only [ih]; simp [h1, h2, hA, hc] <;> omega
    · simp only [ih]; simp [h1, h2, hA, hc] <;> omega
    · simp only [ih]; simp [h1, h2, hA, hc] <;> omega
    · simp only [ih]; simp [h1, h2, hA, hc] <;> omega

/-- If every incoming edge of `k` is accounted for by `acc`, each of their
sources lies in `acc`. -/
theorem sources_mem_of_inCountFrom_eq (E : List (String × String)) (acc : List String)
    (k : String) (h : inCountFrom E acc k = inCount E k) :
    ∀ e ∈ E, e.2 = k → e.1 ∈ acc := by
  intro e he h2
  rw [inCountFrom, inCount, List.countP_eq_length_filter, List.countP_eq_length_filter] at h
  have heq : E.filter (fun e => e.2 == k && decide (e.1 ∈ acc)) =
      E.filter (fun e => e.2 == k) := (filter_target_sub E acc k).eq_of_length h
  have hmem : e ∈ E.filter (fun e => e.2 == k) := by
    simp [List.mem_filter, he, h2]
  rw [← heq] at hmem
  have hpred := (List.mem_filter.mp hmem).2
  have := Bool.and_elim_right hpred
  simpa using this

/-- Conversely, if every source of an incoming edge of `k` lies in `acc`,
the two counts agree. -/
theorem inCountFrom_eq_of_sources_mem (E : List (String × String)) (acc : List String)
    (k : String) (h : ∀ e ∈ E, e.2 = k → e.1 ∈ acc) :
    inCountFrom E acc k = inCount E k := by
  unfold inCountFrom inCount
  apply List.countP_congr
  intro e he
  by_cases h2 : e.2 = k
  · simp [h2, h e he h2]
  · simp [h2]

/-- The number of occurrences of `k` among the out-neighbours of `c`. -/
theorem count_outList (E : List (String × String)) (c k : String) :
    (outList E c).count k = edgeCount E c k := by
  induction E with
  | nil => simp [outList, edgeCount]
  | cons e E ih =>
    simp only [outList, edgeCount, List.filter_cons, List.countP_cons] at *
    by_cases h1 : e.1 = c <;> by_cases h2 : e.2 = k
    all_goals simp [h1, h2, List.count_cons, ih]

/-! ## Degree-table lemmas -/

theorem decDegree_cons (p : String × Int) (t : List (String × Int)) (k : String) :
    decDegree (p :: t) k = (if p.1 = k then (p.1, p.2 - 1) else p) :: decDegree t k := by
  simp only [decDegree, List.map_cons]
  congr 1
  by_cases h : p.1 = k <;> simp [h]

theorem degOf_cons (p : String × Int) (t : List (String × Int)) (k : String) :
    degOf (p :: t) k = if p.1 = k then p.2 else degOf t k := by
  by_cases h : p.1 = k <;> simp [degOf, List.find?_cons, h]

theorem decDegree_keys (deg : List (String × Int)) (k : String) :
    (decDegree deg k).map Prod.fst = deg.map Prod.fst := by
  induction deg with
  | nil => rfl
  | cons p t ih =>
    rw [decDegree_cons, List.map_cons, List.map_cons, ih]
    by_cases h : p.1 = k <;> simp [h]

theorem degOf_decDegree_self (deg : List (String × Int)) (k : String)
    (hk : k ∈ deg.map Prod.fst) :
    degOf (decDegree deg k) k = degOf deg k - 1 := by
  induction deg with
  | nil => simp at hk
  | cons p t ih =>
    simp only [List.map_cons, List.mem_cons] at hk
    rw [decDegree_cons]
    by_cases h : p.1 = k
    · rw [if_pos h, degOf_cons, degOf_cons]
      simp [h]
    · have hk' : k ∈ t.map Prod.fst := by
        rcases hk with hk | hk
        · exact absurd hk.symm h
        · exact hk
      rw [if_neg h, degOf_cons, degOf_cons, if_neg h, if_neg h]
      exact ih hk'

theorem degOf_decDegree_ne (deg : List (String × Int)) (n k : String) (h : k ≠ n) :
    degOf (decDegree deg n) k = degOf deg k := by
  induction deg with
  | nil => rfl
  | cons p t ih =>
    rw [decDegree_cons]
    by_cases hp : p.1 = n
    · have hpk : ¬ p.1 = k := fun hc => h (hc ▸ hp ▸ rfl)
      rw [if_pos hp, degOf_cons, degOf_cons]
      simp only [hpk, if_neg, reduceIte]
      exact ih
    · rw [if_neg hp, degOf_cons, degOf_cons]
      by_cases hk : p.1 = k <;> simp [hk, ih]

theorem degOf_eq_of_mem (deg : List (String × Int)) (hnd : (deg.map Prod.fst).Nodup)
    (k : String) (v : Int) (h : (k, v) ∈ deg) : degOf deg k = v := by
  induction deg with
  | nil => simp at h
  | cons p t ih =>
    simp only [List.map_cons, List.nodup_cons] at hnd
    rcases List.mem_cons.mp h with h | h
    · rw [← h, degOf_cons]
      simp
    · have hne : ¬ p.1 = k := by
        intro hc
        exact hnd.1 (hc ▸ (List.mem_map.mpr ⟨(k, v), h, rfl⟩))
      rw [degOf_cons, if_neg hne]
      exact ih hnd.2 h

theorem posSum_cons (p : String × Int) (t : List (String × Int)) :
    posSum (p :: t) = p.2.toNat + posSum t := by
  simp [posSum]

theorem posSum_decDegree_le (deg : List (String × Int)) (n : String) :
    posSum (decDegree deg n) ≤ posSum deg := by
  induction deg with
  | nil => simp [decDegree, posSum]
  | cons p t ih =>
    rw [decDegree_cons, posSum_cons, posSum_cons]
    by_cases h : p.1 = n
    · rw [if_pos h]
      have : (p.2 - 1).toNat ≤ p.2.toNat := by omega
      omega
    · rw [if_neg h]
      omega

theorem posSum_decDegree_lt (deg : List (String × Int)) (n : String)
    (hpos : 1 ≤ degOf deg n) :
    posSum (decDegree deg n) + 1 ≤ posSum deg := by
  induction deg with
  | nil => simp [degOf] at hpos
  | cons p t ih =>
    rw [decDegree_cons, posSum_cons, posSum_cons]
    by_cases h : p.1 = n
    · rw [degOf_cons, if_pos h] at hpos
      rw [if_pos h]
      have h1 : (p.2 - 1).toNat + 1 ≤ p.2.toNat := by omega
      have h2 := posSum_decDegree_le t n
      omega
    · rw [degOf_cons, if_neg h] at hpos
      rw [if_neg h]
      have := ih hpos
      omega

/-! ## Specification of the inner neighbour-processing loop -/

/-- Invariant-carrying specification of `processNeighbors`. `K` is the key
set of the degree table, `A` the nodes already emitted (including the node
whose neighbour list is being consumed), and `t k` the degree key `k` will
have once the remaining neighbour occurrences `ns` are all decremented.
Since `t` is `Nat`-valued, a key whose degree is `0` has no occurrence left
in `ns`, so it is never decremented again nor re-enqueued. -/
theorem processNeighbors_spec (K A : List String) (t : String → Nat) :
    ∀ (ns : List String) (deg : List (String × Int)) (q : List String),
    deg.map Prod.fst = K →
    (∀ k ∈ K, degOf deg k = (t k : Int) + (ns.count k : Int)) →
    (∀ n ∈ ns, n ∈ K) →
    (A ++ q).Nodup →
    (∀ x ∈ q, x ∈ K) →
    (∀ k ∈ K, (k ∈ A ∨ k ∈ q) ↔ degOf deg k = 0) →
    ((processNeighbors deg q ns).1.map Prod.fst = K) ∧
    (∀ k ∈ K, degOf (processNeighbors deg q ns).1 k = (t k : Int)) ∧
    (∃ b, (processNeighbors deg q ns).2 = q ++ b ∧ List.Sublist b ns) ∧
    ((A ++ (processNeighbors deg q ns).2).Nodup) ∧
    (∀ x ∈ (processNeighbors deg q ns).2, x ∈ K) ∧
    (∀ k ∈ K, (k ∈ A ∨ k ∈ (processNeighbors deg q ns).2) ↔
      degOf (processNeighbors deg q ns).1 k = 0) ∧
    posSum (processNeighbors deg q ns).1 + (processNeighbors deg q ns).2.length ≤
      posSum deg + q.length := by
  intro ns
  induction ns with
  | nil =>
    intro deg q h1 h2 h3 h4 h5 h6
    refine ⟨h1, ?_, ⟨[], by simp [processNeighbors], List.nil_sublist _⟩, h4, h5, h6, le_refl _⟩
    intro k hk
    have := h2 k hk
    simpa using this
  | cons n rest ih =>
    intro deg q h1 h2 h3 h4 h5 h6
    have hnK : n ∈ K := h3 n (List.mem_cons_self n rest)
    have hdegn : degOf deg n = (t n : Int) + (((n :: rest).count n : Nat) : Int) := h2 n hnK
    have hcount : (n :: rest).count n = rest.count n + 1 := by
      simp [List.count_cons]
    have hpos : 1 ≤ degOf deg n := by
      rw [hdegn, hcount]
      have : (0 : Int) ≤ (t n : Int) := Int.natCast_nonneg _
      push_cast
      omega
    have hnAq : n ∉ A ∧ n ∉ q := by
      constructor
      · intro hc
        have := (h6 n hnK).mp (Or.inl hc)
        omega
      · intro hc
        have := (h6 n hnK).mp (Or.inr hc)
        omega
    have hkeys' : (decDegree deg n).map Prod.fst = K := by
      rw [decDegree_keys]; exact h1
    have hself : degOf (decDegree deg n) n = degOf deg n - 1 :=
      degOf_decDegree_self deg n (by rw [h1]; exact hnK)
    have hne : ∀ k, k ≠ n → degOf (decDegree deg n) k = degOf deg k :=
      fun k hk => degOf_decDegree_ne deg n k hk
    have h2' : ∀ k ∈ K, degOf (decDegree deg n) k = (t k : Int) + (rest.count k : Int) := by
      intro k hkK
      by_cases hk : k = n
      · subst hk
        rw [hself, hdegn, hcount]
        push_cast
        ring
      · rw [hne k hk, h2 k hkK]
        have : (n :: rest).count k = rest.count k := by
          have hnk : (n == k) = false := by
            have : ¬ n = k := fun h => hk h.symm
            simp [this]
          simp [List.count_cons, hnk]
        rw [this]
    have h3' : ∀ x ∈ rest, x ∈ K := fun x hx => h3 x (List.mem_cons_of_mem n hx)
    by_cases hz : degOf (decDegree deg n) n = 0
    · -- the neighbour's degree reached zero: it is enqueued
      have hzb : (degOf (decDegree deg n) n == 0) = true := by simp [hz]
      have hstep : processNeighbors deg q (n :: rest) =
          processNeighbors (decDegree deg n) (q ++ [n]) rest := by
        simp [processNeighbors, hzb]
      have h4' : (A ++ (q ++ [n])).Nodup := by
        rw [← List.append_assoc]
        have hperm : List.Perm ((A ++ q) ++ [n]) (n :: (A ++ q)) :=
          List.perm_append_singleton n (A ++ q)
        rw [hperm.nodup_iff, List.nodup_cons]
        refine ⟨?_, h4⟩
        intro hc
        rcases List.mem_append.mp hc with hc | hc
        · exact hnAq.1 hc
        · exact hnAq.2 hc
      have h5' : ∀ x ∈ q ++ [n], x ∈ K := by
        intro x hx
        rcases List.mem_append.mp hx with hx | hx
        · exact h5 x hx
        · rw [List.mem_singleton.mp hx]; exact hnK
      have h6' : ∀ k ∈ K, (k ∈ A ∨ k ∈ q ++ [n]) ↔ degOf (decDegree deg n) k = 0 := by
        intro k hkK
        by_cases hk : k = n
        · subst hk
          simp [hz]
        · rw [hne k hk]
          have base := h6 k hkK
          constructor
          · intro hc
            apply base.mp
            rcases hc with hc | hc
            · exact Or.inl hc
            · rcases List.mem_append.mp hc with hc | hc
              · exact Or.inr hc
              · exact absurd (List.mem_singleton.mp hc) hk
          · intro hc
            rcases base.mpr hc with hc | hc
            · exact Or.inl hc
            · exact Or.inr (List.mem_append.mpr (Or.inl hc))
      obtain ⟨g1, g2, ⟨b, hb, hbs⟩, g4, g5, g6, g7⟩ :=
        ih (decDegree deg n) (q ++ [n]) hkeys' h2' h3' h4' h5' h6'
      rw [hstep]
      refine ⟨g1, g2, ⟨n :: b, ?_, ?_⟩, g4, g5, g6, ?_⟩
      · rw [hb, List.append_assoc]
        rfl
      · exact List.Sublist.cons₂ n hbs
      · have hlt := posSum_decDegree_lt deg n hpos
        have hlen : (q ++ [n]).length = q.length + 1 := by simp
        rw [hlen] at g7
        omega
    · -- the neighbour's degree is still nonzero: queue unchanged
      have hzb : (degOf (decDegree deg n) n == 0) = false := by simp [hz]
      have hstep : processNeighbors deg q (n :: rest) =
          processNeighbors (decDegree deg n) q rest := by
        simp [processNeighbors, hzb]
      have h6' : ∀ k ∈ K, (k ∈ A ∨ k ∈ q) ↔ degOf (decDegree deg n) k = 0 := by
        intro k hkK
        by_cases hk : k = n
        · subst hk
          constructor
          · intro hc
            rcases hc with hc | hc
            · exact absurd hc hnAq.1
            · exact absurd hc hnAq.2
          · intro hc
            exact absurd hc hz
        · rw [hne k hk]
          exact h6 k hkK
      obtain ⟨g1, g2, ⟨b, hb, hbs⟩, g4, g5, g6, g7⟩ :=
        ih (decDegree deg n) q hkeys' h2' h3' h4 h5 h6'
      rw [hstep]
      refine ⟨g1, g2, ⟨b, hb, List.Sublist.cons n hbs⟩, g4, g5, g6, ?_⟩
      have hle := posSum_decDegree_le deg n
      omega

theorem mem_outList (E : List (String × String)) (c x : String) (h : x ∈ outList E c) :
    ∃ e ∈ E, e.1 = c ∧ e.2 = x := by
  unfold outList at h
  obtain ⟨e, he, hx⟩ := List.mem_map.mp h
  have := List.mem_filter.mp he
  exact ⟨e, this.1, by simpa using this.2, hx⟩

/-- One iteration of the `while` loop preserves the invariant: popping `c`
and processing its out-neighbours yields a state whose queue extends `rest`
by a batch of fresh out-neighbours, without increasing the measure. -/
theorem step_inv (E : List (String × String)) (K : List String)
    (hclosed : ∀ e ∈ E, e.1 ∈ K ∧ e.2 ∈ K)
    (deg : List (String × Int)) (c : String) (rest acc : List String)
    (hinv : KahnInv E K deg (c :: rest) acc) :
    KahnInv E K (processNeighbors deg rest (outList E c)).1
      (processNeighbors deg rest (outList E c)).2 (acc ++ [c]) ∧
    (∃ b, (processNeighbors deg rest (outList E c)).2 = rest ++ b ∧
      List.Sublist b (outList E c)) ∧
    posSum (processNeighbors deg rest (outList E c)).1 +
      (processNeighbors deg rest (outList E c)).2.length ≤
      posSum deg + rest.length := by
  have hcK : c ∈ K := hinv.mem_sub c (by simp)
  have hc0 : degOf deg c = 0 := (hinv.zero_iff c hcK).mp (Or.inr (by simp))
  have hcacc : c ∉ acc := by
    have hdisj := List.disjoint_of_nodup_append hinv.nodup
    intro hc
    exact hdisj hc (by simp)
  have hfull : inCountFrom E acc c = inCount E c := by
    have := hinv.deg_eq c hcK
    rw [hc0] at this
    omega
  have hsrc : ∀ e ∈ E, e.2 = c → e.1 ∈ acc :=
    sources_mem_of_inCountFrom_eq E acc c hfull
  -- the inner loop over the out-neighbours of `c`
  have h2 : ∀ k ∈ K, degOf deg k =
      ((inCount E k - inCountFrom E (acc ++ [c]) k : Nat) : Int) +
        ((outList E c).count k : Int) := by
    intro k hk
    have hd := hinv.deg_eq k hk
    have hs := inCountFrom_append_single E acc c k hcacc
    have hc2 := count_outList E c k
    have hl1 := inCountFrom_le_inCount E (acc ++ [c]) k
    have hl2 := inCountFrom_le_inCount E acc k
    rw [hd, hc2]
    omega
  have h3 : ∀ n ∈ outList E c, n ∈ K := by
    intro n hn
    obtain ⟨e, he, _, h2e⟩ := mem_outList E c n hn
    exact h2e ▸ (hclosed e he).2
  have h4 : ((acc ++ [c]) ++ rest).Nodup := by
    rw [List.append_assoc, List.singleton_append]
    exact hinv.nodup
  have h5 : ∀ x ∈ rest, x ∈ K := by
    intro x hx
    exact hinv.mem_sub x (List.mem_append.mpr (Or.inr (by simp [hx])))
  have h6 : ∀ k ∈ K, (k ∈ acc ++ [c] ∨ k ∈ rest) ↔ degOf deg k = 0 := by
    intro k hk
    rw [← hinv.zero_iff k hk]
    constructor
    · intro hc
      rcases hc with hc | hc
      · rcases List.mem_append.mp hc with hc | hc
        · exact Or.inl hc
        · exact Or.inr (by simp [List.mem_singleton.mp hc])
      · exact Or.inr (List.mem_cons_of_mem c hc)
    · intro hc
      rcases hc with hc | hc
      · exact Or.inl (List.mem_append.mpr (Or.inl hc))
      · rcases List.mem_cons.mp hc with hc | hc
        · exact Or.inl (List.mem_append.mpr (Or.inr (by simp [hc])))
        · exact Or.inr hc
  obtain ⟨g1, g2, ⟨b, hb, hbs⟩, g4, g5, g6, g7⟩ :=
    processNeighbors_spec K (acc ++ [c])
      (fun k => inCount E k - inCountFrom E (acc ++ [c]) k)
      (outList E c) deg rest hinv.keys_eq h2 h3 h4 h5 h6
  refine ⟨?_, ⟨b, hb, hbs⟩, g7⟩
  constructor
  · exact g1
  · intro k hk
    rw [g2 k hk]
    have := inCountFrom_le_inCount E (acc ++ [c]) k
    omega
  · exact g4
  · intro x hx
    rcases List.mem_append.mp hx with hx | hx
    · rcases List.mem_append.mp hx with hx | hx
      · exact hinv.mem_sub x (List.mem_append.mpr (Or.inl hx))
      · simp [List.mem_singleton.mp hx, hcK]
    · exact g5 x hx
  · exact g6
  · intro e he hetgt
    rcases List.mem_append.mp hetgt with htgt | htgt
    · obtain ⟨hmem, hidx⟩ := hinv.ordered e he htgt
      refine ⟨List.mem_append.mpr (Or.inl hmem), ?_⟩
      rw [List.indexOf_append_of_mem hmem, List.indexOf_append_of_mem htgt]
      exact hidx
    · have hec : e.2 = c := List.mem_singleton.mp htgt
      have hmem : e.1 ∈ acc := hsrc e he hec
      refine ⟨List.mem_append.mpr (Or.inl hmem), ?_⟩
      rw [List.indexOf_append_of_mem hmem, hec,
        List.indexOf_append_of_not_mem hcacc]
      simp only [List.indexOf_cons_self, Nat.add_zero]
      exact List.indexOf_lt_length.mpr hmem

/-- Running the loop from any state satisfying the invariant, with enough
fuel, ends in a state satisfying the invariant with an empty queue. -/
theorem kahnFuel_spec (E : List (String × String)) (K : List String)
    (hclosed : ∀ e ∈ E, e.1 ∈ K ∧ e.2 ∈ K) :
    ∀ (fuel : Nat) (deg : List (String × Int)) (queue acc : List String),
    KahnInv E K deg queue acc →
    posSum deg + queue.length ≤ fuel →
    ∃ degf, KahnInv E K degf [] (kahnFuel (outList E) fuel deg queue acc) := by
  intro fuel
  induction fuel with
  | zero =>
    intro deg queue acc hinv hfuel
    have hq : queue = [] := by
      cases queue with
      | nil => rfl
      | cons a l => simp at hfuel
    subst hq
    exact ⟨deg, hinv⟩
  | succ fuel ih =>
    intro deg queue acc hinv hfuel
    cases queue with
    | nil => exact ⟨deg, hinv⟩
    | cons c rest =>
      obtain ⟨hinv', _, hmeas⟩ := step_inv E K hclosed deg c rest acc hinv
      have hstep : kahnFuel (outList E) (fuel + 1) deg (c :: rest) acc =
          kahnFuel (outList E) fuel (processNeighbors deg rest (outList E c)).1
            (processNeighbors deg rest (outList E c)).2 (acc ++ [c]) := rfl
      rw [hstep]
      apply ih _ _ _ hinv'
      have : rest.length + 1 = (c :: rest).length := by simp
      omega

/-! ## Instantiation at the orchestrator's graph -/

theorem isKey_iff (m : List (String × SQLModule)) (d : String) :
    isKey m d = true ↔ d ∈ m.map Prod.fst := by
  simp only [isKey, List.any_eq_true, List.mem_map]
  constructor
  · rintro ⟨p, hp, hd⟩
    exact ⟨p, hp, by simpa using hd.symm⟩
  · rintro ⟨p, hp, hd⟩
    exact ⟨p, hp, by simp [hd]⟩

theorem moduleEdges_closed (m : List (String × SQLModule)) :
    ∀ e ∈ moduleEdges m, e.1 ∈ m.map Prod.fst ∧ e.2 ∈ m.map Prod.fst := by
  intro e he
  simp only [moduleEdges, List.mem_flatMap] at he
  obtain ⟨p, hp, he⟩ := he
  obtain ⟨dep, hdep, hedge⟩ := List.mem_map.mp he
  have hkey := (List.mem_filter.mp hdep).2
  constructor
  · rw [← hedge]
    exact (isKey_iff m dep).mp hkey
  · rw [← hedge]
    exact List.mem_map.mpr ⟨p, hp, rfl⟩

theorem countP_target_block (l : List String) (y k : String) :
    (l.map (fun dep => (dep, y))).countP (fun e => e.2 == k) =
      if y = k then l.length else 0 := by
  rw [List.countP_map]
  by_cases h : y = k
  · rw [if_pos h]
    apply List.countP_eq_length.mpr
    intro x _
    simp [h]
  · rw [if_neg h]
    apply List.countP_eq_zero.mpr
    intro x _
    simp [h]

theorem filter_key_singleton (m : List (String × SQLModule))
    (hnd : (m.map Prod.fst).Nodup) (p : String × SQLModule) (hp : p ∈ m) :
    m.filter (fun q => q.1 == p.1) = [p] := by
  induction m with
  | nil => simp at hp
  | cons q t ih =>
    simp only [List.map_cons, List.nodup_cons] at hnd
    rcases List.mem_cons.mp hp with hp | hp
    · subst hp
      rw [List.filter_cons]
      simp only [beq_self_eq_true, if_pos]
      have : t.filter (fun q => q.1 == p.1) = [] := by
        apply List.filter_eq_nil_iff.mpr
        intro a ha
        intro hc
        apply hnd.1
        have : a.1 = p.1 := by simpa using hc
        exact this ▸ List.mem_map.mpr ⟨a, ha, rfl⟩
      rw [this]
    · rw [List.filter_cons]
      have hne : ¬ q.1 = p.1 := by
        intro hc
        apply hnd.1
        exact hc ▸ List.mem_map.mpr ⟨p, hp, rfl⟩
      simp only [hne, beq_iff_eq, if_neg, reduceIte]
      exact ih hnd.2 hp

theorem inCount_moduleEdges (m : List (String × SQLModule))
    (hnd : (m.map Prod.fst).Nodup) (p : String × SQLModule) (hp : p ∈ m) :
    inCount (moduleEdges m) p.1 =
      (p.2.get_dependencies.filter (fun dep => isKey m dep)).length := by
  have hgen : ∀ sub : List (String × SQLModule),
      inCount (sub.flatMap (fun q =>
        (q.2.get_dependencies.filter (fun dep => isKey m dep)).map
          (fun dep => (dep, q.1)))) p.1 =
      ((sub.filter (fun q => q.1 == p.1)).map
        (fun q => (q.2.get_dependencies.filter (fun dep => isKey m dep)).length)).sum := by
    intro sub
    induction sub with
    | nil => simp [inCount]
    | cons q t ih =>
      simp only [List.flatMap_cons, inCount, List.countP_append] at *
      rw [ih]
      rw [countP_target_block]
      rw [List.filter_cons]
      by_cases h : q.1 = p.1
      · simp [h]
      · have : ¬ (q.1 == p.1) = true := by simp [h]
        simp [h, this]
  have := hgen m
  rw [moduleEdges]
  rw [this, filter_key_singleton m hnd p hp]
  simp

theorem buildInDegree_keys (m : List (String × SQLModule)) :
    (buildInDegree m).map Prod.fst = m.map Prod.fst := by
  simp [buildInDegree, List.map_map, Function.comp]

theorem degOf_buildInDegree (m : List (String × SQLModule))
    (hnd : (m.map Prod.fst).Nodup) (p : String × SQLModule) (hp : p ∈ m) :
    degOf (buildInDegree m) p.1 =
      ((p.2.get_dependencies.filter (fun dep => isKey m dep)).length : Int) := by
  apply degOf_eq_of_mem
  · rw [buildInDegree_keys]
    exact hnd
  · exact List.mem_map.mpr ⟨p, hp, rfl⟩

theorem initialQueue_sublist (m : List (String × SQLModule)) :
    List.Sublist (initialQueue m) (m.map Prod.fst) := by
  rw [initialQueue, ← buildInDegree_keys]
  exact List.Sublist.map Prod.fst (List.filter_sublist _)

theorem mem_initialQueue (m : List (String × SQLModule))
    (hnd : (m.map Prod.fst).Nodup) (k : String) :
    k ∈ initialQueue m ↔ k ∈ m.map Prod.fst ∧ degOf (buildInDegree m) k = 0 := by
  have hnd' : ((buildInDegree m).map Prod.fst).Nodup := by
    rw [buildInDegree_keys]; exact hnd
  rw [initialQueue, ← buildInDegree_keys]
  generalize buildInDegree m = deg at *
  constructor
  · intro h
    obtain ⟨p, hp, hpk⟩ := List.mem_map.mp h
    have hpf := List.mem_filter.mp hp
    have hz : p.2 = 0 := by simpa using hpf.2
    have hpd : (k, (0 : Int)) ∈ deg := by
      have hpe : p = (k, 0) := by
        cases p
        simp only at hpk hz
        simp [hpk, hz]
      exact hpe ▸ hpf.1
    constructor
    · exact List.mem_map.mpr ⟨(k, 0), hpd, rfl⟩
    · exact degOf_eq_of_mem deg hnd' k 0 hpd
  · intro ⟨hk, h0⟩
    obtain ⟨p, hp, hpk⟩ := List.mem_map.mp hk
    have hdp : degOf deg p.1 = p.2 := degOf_eq_of_mem deg hnd' p.1 p.2 hp
    have hz : p.2 = 0 := by
      rw [hpk] at hdp
      rw [← hdp]
      exact h0
    exact List.mem_map.mpr ⟨p, List.mem_filter.mpr ⟨hp, by simp [hz]⟩, hpk⟩

/-- The state `_sort_by_dependencies` enters the `while` loop with
satisfies the invariant. -/
theorem initial_inv (m : List (String × SQLModule))
    (hnd : (m.map Prod.fst).Nodup) :
    KahnInv (moduleEdges m) (m.map Prod.fst) (buildInDegree m) (initialQueue m) [] := by
  constructor
  · exact buildInDegree_keys m
  · intro k hk
    obtain ⟨p, hp, hpk⟩ := List.mem_map.mp hk
    subst hpk
    rw [degOf_buildInDegree m hnd p hp, inCount_moduleEdges m hnd p hp,
      inCountFrom_nil]
    simp
  · simpa using (initialQueue_sublist m).nodup hnd
  · intro x hx
    simp only [List.nil_append] at hx
    exact (initialQueue_sublist m).mem hx
  · intro k hk
    simp only [List.not_mem_nil, false_or]
    rw [mem_initialQueue m hnd k]
    constructor
    · intro h
      exact h.2
    · intro h
      exact ⟨hk, h⟩
  · intro e _ hc
    simp at hc

/-- The list `sorted_names` computed by `_sort_by_dependencies`: it has no
duplicates, draws from the keys, respects every dependency edge, and
contains exactly the keys all of whose in-edges come from it. -/
theorem sortedNames_main (m : List (String × SQLModule))
    (hnd : (m.map Prod.fst).Nodup) :
    (sortedNames m).Nodup ∧
    (∀ x ∈ sortedNames m, x ∈ m.map Prod.fst) ∧
    (∀ e ∈ moduleEdges m, e.2 ∈ sortedNames m →
      e.1 ∈ sortedNames m ∧
        (sortedNames m).indexOf e.1 < (sortedNames m).indexOf e.2) ∧
    (∀ k ∈ m.map Prod.fst,
      (k ∈ sortedNames m ↔ ∀ e ∈ moduleEdges m, e.2 = k → e.1 ∈ sortedNames m)) := by
  obtain ⟨degf, hinv⟩ := kahnFuel_spec (moduleEdges m) (m.map Prod.fst)
    (moduleEdges_closed m)
    (posSum (buildInDegree m) + (initialQueue m).length)
    (buildInDegree m) (initialQueue m) [] (initial_inv m hnd) (le_refl _)
  have hsn : sortedNames m =
      kahnFuel (outList (moduleEdges m))
        (posSum (buildInDegree m) + (initialQueue m).length)
        (buildInDegree m) (initialQueue m) [] := rfl
  rw [hsn]
  refine ⟨by simpa using hinv.nodup, ?_, ?_, ?_⟩
  · intro x hx
    exact hinv.mem_sub x (by simpa using hx)
  · intro e he htgt
    exact hinv.ordered e he htgt
  · intro k hk
    constructor
    · intro hko
      have h0 : degOf degf k = 0 := (hinv.zero_iff k hk).mp (Or.inl hko)
      have hd := hinv.deg_eq k hk
      rw [h0] at hd
      have hfull : inCountFrom (moduleEdges m)
          (kahnFuel (outList (moduleEdges m))
            (posSum (buildInDegree m) + (initialQueue m).length)
            (buildInDegree m) (initialQueue m) []) k = inCount (moduleEdges m) k := by
        omega
      exact sources_mem_of_inCountFrom_eq _ _ _ hfull
    · intro hall
      have hfull := inCountFrom_eq_of_sources_mem (moduleEdges m) _ k hall
      have h0 : degOf degf k = 0 := by
        rw [hinv.deg_eq k hk, hfull]
        ring
      rcases (hinv.zero_iff k hk).mpr h0 with h | h
      · exact h
      · simp at h

theorem predSource_spec (E : List (String × String)) (out : List String) (k : String)
    (h : ∃ e ∈ E, e.2 = k ∧ e.1 ∉ out) :
    (predSource E out k, k) ∈ E ∧ predSource E out k ∉ out := by
  obtain ⟨e, he, h2, h1⟩ := h
  have hfind : (E.find? (fun e => e.2 == k && !(out.contains e.1))).isSome := by
    rw [List.find?_isSome]
    exact ⟨e, he, by simp [h2, h1]⟩
  obtain ⟨e', he'⟩ := Option.isSome_iff_exists.mp hfind
  have hm := List.mem_of_find?_eq_some he'
  have hp := List.find?_some he'
  simp at hp
  have hps : predSource E out k = e'.1 := by
    unfold predSource
    rw [he']
  rw [hps]
  constructor
  · rw [← hp.1]
    exact hm
  · exact hp.2

theorem sortedNames_complete (m : List (String × SQLModule))
    (hnd : (m.map Prod.fst).Nodup) (hacyc : AcyclicModules m) :
    ∀ k ∈ m.map Prod.fst, k ∈ sortedNames m := by
  by_contra hc
  push_neg at hc
  obtain ⟨k₀, hk₀K, hk₀⟩ := hc
  have hmain := (sortedNames_main m hnd).2.2.2
  have hstep : ∀ k, k ∈ m.map Prod.fst → k ∉ sortedNames m →
      (predSource (moduleEdges m) (sortedNames m) k, k) ∈ moduleEdges m ∧
      predSource (moduleEdges m) (sortedNames m) k ∉ sortedNames m ∧
      predSource (moduleEdges m) (sortedNames m) k ∈ m.map Prod.fst := by
    intro k hkK hkout
    have hex : ∃ e ∈ moduleEdges m, e.2 = k ∧ e.1 ∉ sortedNames m := by
      by_contra hno
      push_neg at hno
      exact hkout ((hmain k hkK).mpr (fun e he h2 => hno e he h2))
    obtain ⟨hmem, hout⟩ := predSource_spec (moduleEdges m) (sortedNames m) k hex
    exact ⟨hmem, hout, (moduleEdges_closed m _ hmem).1⟩
  have hg : ∀ n, (fun k => predSource (moduleEdges m) (sortedNames m) k)^[n] k₀ ∈ m.map Prod.fst ∧
      (fun k => predSource (moduleEdges m) (sortedNames m) k)^[n] k₀ ∉ sortedNames m := by
    intro n
    induction n with
    | zero => exact ⟨hk₀K, hk₀⟩
    | succ n ih =>
      rw [Function.iterate_succ_apply']
      obtain ⟨_, h2, h3⟩ := hstep _ ih.1 ih.2
      exact ⟨h3, h2⟩
  have hedge : ∀ n, ((fun k => predSource (moduleEdges m) (sortedNames m) k)^[n + 1] k₀,
      (fun k => predSource (moduleEdges m) (sortedNames m) k)^[n] k₀) ∈ moduleEdges m := by
    intro n
    rw [Function.iterate_succ_apply']
    exact (hstep _ (hg n).1 (hg n).2).1
  set R : Finset String := (m.map Prod.fst).toFinset.filter
    (fun k => k ∉ sortedNames m) with hR
  have hmaps : ∀ n ∈ Finset.range (R.card + 1),
      (fun k => predSource (moduleEdges m) (sortedNames m) k)^[n] k₀ ∈ R := by
    intro n _
    rw [hR]
    simp only [Finset.mem_filter, List.mem_toFinset]
    exact ⟨(hg n).1, (hg n).2⟩
  have hcard : R.card < (Finset.range (R.card + 1)).card := by simp
  obtain ⟨i, hi, j, hj, hne, heq⟩ :=
    Finset.exists_ne_map_eq_of_card_lt_of_maps_to hcard hmaps
  have hchain : ∀ d n, Relation.TransGen (edgeRel m)
      ((fun k => predSource (moduleEdges m) (sortedNames m) k)^[n + d + 1] k₀)
      ((fun k => predSource (moduleEdges m) (sortedNames m) k)^[n] k₀) := by
    intro d
    induction d with
    | zero => exact fun n => Relation.TransGen.single (hedge n)
    | succ d ih =>
      intro n
      have h1 : edgeRel m
          ((fun k => predSource (moduleEdges m) (sortedNames m) k)^[n + d + 1 + 1] k₀)
          ((fun k => predSource (moduleEdges m) (sortedNames m) k)^[n + d + 1] k₀) :=
        hedge (n + d + 1)
      have harith : n + (d + 1) + 1 = n + d + 1 + 1 := by omega
      rw [harith]
      exact Relation.TransGen.head h1 (ih n)
  rcases hne.lt_or_lt with hij | hij
  · have harith : j = i + (j - i - 1) + 1 := by omega
    have := hchain (j - i - 1) i
    rw [← harith, ← heq] at this
    exact hacyc _ this
  · have harith : i = j + (i - j - 1) + 1 := by omega
    have := hchain (i - j - 1) j
    rw [← harith, heq] at this
    exact hacyc _ this

theorem acyclic_of_sortedNames_all (m : List (String × SQLModule))
    (hnd : (m.map Prod.fst).Nodup)
    (hall : ∀ k ∈ m.map Prod.fst, k ∈ sortedNames m) :
    AcyclicModules m := by
  have hord := (sortedNames_main m hnd).2.2.1
  intro n hTG
  have key : ∀ a b, Relation.TransGen (edgeRel m) a b → b ∈ sortedNames m →
      a ∈ sortedNames m ∧
        (sortedNames m).indexOf a < (sortedNames m).indexOf b := by
    intro a b h
    induction h with
    | single h =>
      intro hb
      exact hord _ h hb
    | tail hab hbc ih =>
      intro hc
      obtain ⟨hbmem, hbidx⟩ := hord _ hbc hc
      obtain ⟨hamem, haidx⟩ := ih hbmem
      exact ⟨hamem, lt_trans haidx hbidx⟩
  have hnK : n ∈ m.map Prod.fst := by
    obtain ⟨b, hab, _⟩ := Relation.TransGen.head'_iff.mp hTG
    exact (moduleEdges_closed m _ hab).1
  have := key n n hTG (hall n hnK)
  omega

theorem sortedNames_perm_of_acyclic (m : List (String × SQLModule))
    (hnd : (m.map Prod.fst).Nodup) (hacyc : AcyclicModules m) :
    (sortedNames m).Perm (m.map Prod.fst) := by
  obtain ⟨hnodup, hsub, _, _⟩ := sortedNames_main m hnd
  exact (List.perm_ext_iff_of_nodup hnodup hnd).mpr
    (fun a => ⟨fun h => hsub a h, fun h => sortedNames_complete m hnd hacyc a h⟩)

theorem acyclic_of_sortedNames_length (m : List (String × SQLModule))
    (hnd : (m.map Prod.fst).Nodup) (hlen : (sortedNames m).length = m.length) :
    AcyclicModules m := by
  obtain ⟨hnodup, hsub, _, _⟩ := sortedNames_main m hnd
  have hsp : List.Subperm (sortedNames m) (m.map Prod.fst) :=
    List.subperm_of_subset hnodup (fun a ha => hsub a ha)
  have hperm : (sortedNames m).Perm (m.map Prod.fst) := by
    apply hsp.perm_of_length_le
    rw [List.length_map]
    omega
  apply acyclic_of_sortedNames_all m hnd
  intro k hk
  exact (hperm.mem_iff).mpr hk

/-- The loop's output is the initial queue followed by the concatenated
enqueue batches (FIFO: emission order is enqueue order), and every batch is
a deduplicated selection of the out-neighbour list of some emitted node. -/
theorem kahnFuel_batches (E : List (String × String)) (K : List String)
    (hclosed : ∀ e ∈ E, e.1 ∈ K ∧ e.2 ∈ K) :
    ∀ (fuel : Nat) (deg : List (String × Int)) (queue acc : List String),
    KahnInv E K deg queue acc →
    posSum deg + queue.length ≤ fuel →
    kahnFuel (outList E) fuel deg queue acc =
      acc ++ queue ++ (kahnBatchesFuel (outList E) fuel deg queue).flatten ∧
    (∀ b ∈ kahnBatchesFuel (outList E) fuel deg queue,
      b.Nodup ∧ ∃ c ∈ K, List.Sublist b (outList E c)) := by
  intro fuel
  induction fuel with
  | zero =>
    intro deg queue acc hinv hfuel
    have hq : queue = [] := by
      cases queue with
      | nil => rfl
      | cons a l => simp at hfuel
    subst hq
    simp [kahnFuel, kahnBatchesFuel]
  | succ fuel ih =>
    intro deg queue acc hinv hfuel
    cases queue with
    | nil => simp [kahnFuel, kahnBatchesFuel]
    | cons c rest =>
      obtain ⟨hinv', ⟨b, hb, hbs⟩, hmeas⟩ := step_inv E K hclosed deg c rest acc hinv
      have hcK : c ∈ K := hinv.mem_sub c (by simp)
      obtain ⟨ihjoin, ihbatch⟩ := ih (processNeighbors deg rest (outList E c)).1
        (processNeighbors deg rest (outList E c)).2 (acc ++ [c]) hinv'
        (by
          have : rest.length + 1 = (c :: rest).length := by simp
          omega)
      have hstep : kahnFuel (outList E) (fuel + 1) deg (c :: rest) acc =
          kahnFuel (outList E) fuel (processNeighbors deg rest (outList E c)).1
            (processNeighbors deg rest (outList E c)).2 (acc ++ [c]) := rfl
      have hbstep : kahnBatchesFuel (outList E) (fuel + 1) deg (c :: rest) =
          ((processNeighbors deg rest (outList E c)).2.drop rest.length) ::
            kahnBatchesFuel (outList E) fuel
              (processNeighbors deg rest (outList E c)).1
              (processNeighbors deg rest (outList E c)).2 := rfl
      have hdrop : (processNeighbors deg rest (outList E c)).2.drop rest.length = b := by
        rw [hb]
        exact List.drop_left rest b
      constructor
      · rw [hstep, ihjoin, hbstep, hdrop, List.flatten_cons, hb]
        simp
      · rw [hbstep, hdrop]
        intro batch hbatch
        rcases List.mem_cons.mp hbatch with hb1 | hb1
        · subst hb1
          constructor
          · have hq' : (processNeighbors deg rest (outList E c)).2.Nodup :=
              (List.nodup_append.mp hinv'.nodup).2.1
            rw [hb] at hq'
            exact (List.nodup_append.mp hq').2.1
          · exact ⟨c, hcK, hbs⟩
        · exact ihbatch batch hb1

/-- Per-module block structure of the adjacency list: the out-neighbours of
`c` are, per module in mapping order, that module's key repeated once per
occurrence of `c` among its (in-set) qualified dependencies. -/
theorem outList_moduleEdges_blocks (m : List (String × SQLModule)) (c : String) :
    outList (moduleEdges m) c = m.flatMap (fun p =>
      List.replicate ((p.2.get_dependencies.filter (fun dep => isKey m dep)).count c) p.1) := by
  have hblock : ∀ (l : List String) (y : String),
      ((l.map (fun dep => (dep, y))).filter (fun e => e.1 == c)).map (fun e => e.2) =
        List.replicate (l.count c) y := by
    intro l y
    induction l with
    | nil => simp
    | cons d ds ihd =>
      simp only [List.map_cons, List.filter_cons, List.count_cons]
      by_cases hd : d = c
      · subst hd
        simp only [beq_self_eq_true, if_pos, List.map_cons, ihd]
        have : (d == d) = true := by simp
        simp [List.replicate_succ]
      · have hb : (d == c) = false := by simp [hd]
        simp [hb, ihd]
  have hgen : ∀ sub : List (String × SQLModule),
      outList (sub.flatMap (fun p =>
        (p.2.get_dependencies.filter (fun dep => isKey m dep)).map
          (fun dep => (dep, p.1)))) c =
      sub.flatMap (fun p =>
        List.replicate ((p.2.get_dependencies.filter (fun dep => isKey m dep)).count c) p.1) := by
    intro sub
    induction sub with
    | nil => simp [outList]
    | cons p t iht =>
      simp only [List.flatMap_cons]
      unfold outList at *
      rw [List.filter_append, List.map_append, iht, hblock]
  exact hgen m

/-- A duplicate-free selection from a list of replicated-key blocks is a
selection from the keys in order. -/
theorem nodup_sublist_blocks (f : String × SQLModule → Nat) :
    ∀ (L : List (String × SQLModule)) (b : List String), b.Nodup →
    List.Sublist b (L.flatMap (fun p => List.replicate (f p) p.1)) →
    List.Sublist b (L.map Prod.fst) := by
  intro L
  induction L with
  | nil =>
    intro b _ h
    simpa using h
  | cons p t ih =>
    intro b hnd h
    simp only [List.flatMap_cons] at h
    obtain ⟨b₁, b₂, hbeq, hb₁, hb₂⟩ := List.sublist_append_iff.mp h
    obtain ⟨n, hn, hb₁r⟩ := List.sublist_replicate_iff.mp hb₁
    subst hbeq
    subst hb₁r
    have hb₂nd : b₂.Nodup := (List.nodup_append.mp hnd).2.1
    have hn1 : n ≤ 1 := by
      have := (List.nodup_append.mp hnd).1
      exact (List.nodup_replicate.mp this)
    have hb₂k : List.Sublist b₂ (t.map Prod.fst) := ih b₂ hb₂nd hb₂
    match n, hn1 with
    | 0, _ =>
      simpa using List.Sublist.cons p.1 hb₂k
    | 1, _ =>
      simpa [List.replicate_succ] using List.Sublist.cons₂ p.1 hb₂k

/-- The emitted order is the initial queue followed by the enqueue batches,
and the initial queue and every batch follow the mapping's key order. -/
theorem kahnBatches_spec (m : List (String × SQLModule))
    (hnd : (m.map Prod.fst).Nodup) :
    sortedNames m = initialQueue m ++ (kahnBatches m).flatten ∧
    (∀ b ∈ kahnBatches m, List.Sublist b (m.map Prod.fst)) := by
  obtain ⟨hjoin, hbatch⟩ := kahnFuel_batches (moduleEdges m) (m.map Prod.fst)
    (moduleEdges_closed m)
    (posSum (buildInDegree m) + (initialQueue m).length)
    (buildInDegree m) (initialQueue m) [] (initial_inv m hnd) (le_refl _)
  have hsn : sortedNames m =
      kahnFuel (outList (moduleEdges m))
        (posSum (buildInDegree m) + (initialQueue m).length)
        (buildInDegree m) (initialQueue m) [] := rfl
  have hkb : kahnBatches m =
      kahnBatchesFuel (outList (moduleEdges m))
        (posSum (buildInDegree m) + (initialQueue m).length)
        (buildInDegree m) (initialQueue m) := rfl
  constructor
  · rw [hsn, hjoin, hkb]
    simp
  · intro b hb
    rw [hkb] at hb
    obtain ⟨hbnd, c, _, hbs⟩ := hbatch b hb
    rw [outList_moduleEdges_blocks] at hbs
    exact nodup_sublist_blocks _ m b hbnd hbs

/-! ## Looking the sorted names back up in the mapping -/

theorem find?_key_eq (m : List (String × SQLModule))
    (hnd : (m.map Prod.fst).Nodup) (p : String × SQLModule) (hp : p ∈ m) :
    m.find? (fun q => q.1 == p.1) = some p := by
  induction m with
  | nil => simp at hp
  | cons q t ih =>
    simp only [List.map_cons, List.nodup_cons] at hnd
    rcases List.mem_cons.mp hp with hp | hp
    · subst hp
      simp [List.find?_cons]
    · have hne : (q.1 == p.1) = false := by
        have : ¬ q.1 = p.1 := by
          intro hc
          exact hnd.1 (hc ▸ List.mem_map.mpr ⟨p, hp, rfl⟩)
        simp [this]
      rw [List.find?_cons, hne]
      exact ih hnd.2 hp

theorem lookup_values (m : List (String × SQLModule))
    (hnd : (m.map Prod.fst).Nodup) :
    (m.map Prod.fst).filterMap
      (fun n => (m.find? (fun p => p.1 == n)).map Prod.snd) = m.map Prod.snd := by
  rw [List.filterMap_map]
  have h : ∀ p ∈ m,
      ((m.find? (fun q => q.1 == p.1)).map Prod.snd) = some p.2 := by
    intro p hp
    rw [find?_key_eq m hnd p hp]
    rfl
  calc m.filterMap (fun p => (m.find? (fun q => q.1 == p.1)).map Prod.snd)
      = m.filterMap (fun p => some p.2) := List.filterMap_congr h
    _ = m.map Prod.snd := by
        rw [← List.filterMap_eq_map Prod.snd]
        rfl

theorem lookup_values_perm (m : List (String × SQLModule))
    (hnd : (m.map Prod.fst).Nodup) (names : List String)
    (hperm : names.Perm (m.map Prod.fst)) :
    (names.filterMap
      (fun n => (m.find? (fun p => p.1 == n)).map Prod.snd)).Perm (m.map Prod.snd) := by
  have h := hperm.filterMap (fun n => (m.find? (fun p => p.1 == n)).map Prod.snd)
  rw [lookup_values m hnd] at h
  exact h

/-- Introduce an edge of the dependency graph from a module's declaration. -/
theorem mem_moduleEdges_intro (m : List (String × SQLModule))
    (qb : String) (mb : SQLModule) (d : String) (hb : (qb, mb) ∈ m)
    (hd : d ∈ mb.get_dependencies) (hk : d ∈ m.map Prod.fst) :
    (d, qb) ∈ moduleEdges m := by
  unfold moduleEdges
  rw [List.mem_flatMap]
  refine ⟨(qb, mb), hb, ?_⟩
  rw [List.mem_map]
  refine ⟨d, ?_, rfl⟩
  rw [List.mem_filter]
  exact ⟨hd, (isKey_iff m d).mpr hk⟩

/-! ## Helpers for concrete instances -/

/-- A ranking function certifies acyclicity. -/
theorem acyclic_of_rank (m : List (String × SQLModule)) (r : String → Nat)
    (h : ∀ e ∈ moduleEdges m, r e.1 < r e.2) : AcyclicModules m := by
  intro n hTG
  have key : ∀ a b, Relation.TransGen (edgeRel m) a b → r a < r b := by
    intro a b hab
    induction hab with
    | single h1 => exact h _ h1
    | tail _ h2 ih => exact lt_trans ih (h _ h2)
  exact absurd (key n n hTG) (lt_irrefl _)

/-- A mapping without in-set dependency edges is acyclic. -/
theorem acyclic_of_no_edges (m : List (String × SQLModule))
    (h : moduleEdges m = []) : AcyclicModules m := by
  intro n hTG
  obtain ⟨b, hb, _⟩ := Relation.TransGen.head'_iff.mp hTG
  unfold edgeRel at hb
  rw [h] at hb
  simp at hb

/-- The full behaviour of `_sort_by_dependencies` on an acyclic mapping
(shared by several claims below). -/
theorem resolver_acyclic_spec (m : List (String × SQLModule))
    (hnd : (m.map Prod.fst).Nodup) (hacyc : AcyclicModules m) :
    ∃ l : List SQLModule,
      sortByDependencies m = .ok l ∧
      l.Perm (m.map Prod.snd) ∧
      l = (sortedNames m).filterMap
        (fun n => (m.find? (fun p => p.1 == n)).map Prod.snd) ∧
      (sortedNames m).Perm (m.map Prod.fst) ∧
      (∀ qb mb, (qb, mb) ∈ m → ∀ d ∈ mb.get_dependencies, d ∈ m.map Prod.fst →
        (sortedNames m).indexOf d < (sortedNames m).indexOf qb) := by
  have hperm := sortedNames_perm_of_acyclic m hnd hacyc
  have hlen : (sortedNames m).length = m.length := by
    rw [hperm.length_eq, List.length_map]
  have hok : sortByDependencies m = .ok ((sortedNames m).filterMap
      (fun n => (m.find? (fun p => p.1 == n)).map Prod.snd)) := by
    unfold sortByDependencies
    rw [if_neg (by simp [hlen])]
  refine ⟨_, hok, lookup_values_perm m hnd _ hperm, rfl, hperm, ?_⟩
  intro qb mb hb d hd hk
  have hedge : (d, qb) ∈ moduleEdges m := mem_moduleEdges_intro m qb mb d hb hd hk
  have hord := (sortedNames_main m hnd).2.2.1
  have hqb : qb ∈ sortedNames m :=
    hperm.mem_iff.mpr (List.mem_map.mpr ⟨(qb, mb), hb, rfl⟩)
  exact (hord (d, qb) hedge hqb).2

/-! ## C1 -/

/-- C1: for every mapping of same-layer modules with distinct qualified
names whose dependency graph — each unqualified dependency first qualified
as `layer/name`, edges kept only between keys of the mapping — is acyclic,
`_sort_by_dependencies` returns the modules looked up along `sorted_names`;
that list is a permutation of the input modules, `sorted_names` is a
permutation of the input keys, and every module's key comes strictly after
each of its dependencies that is a key of the mapping. -/
theorem C1_resolver_ordering (m : List (String × SQLModule))
    (hnd : (m.map Prod.fst).Nodup) (hacyc : AcyclicModules m) :
    ∃ l : List SQLModule,
      sortByDependencies m = .ok l ∧
      l.Perm (m.map Prod.snd) ∧
      l = (sortedNames m).filterMap
        (fun n => (m.find? (fun p => p.1 == n)).map Prod.snd) ∧
      (sortedNames m).Perm (m.map Prod.fst) ∧
      (∀ qb mb, (qb, mb) ∈ m → ∀ d ∈ mb.get_dependencies, d ∈ m.map Prod.fst →
        (sortedNames m).indexOf d < (sortedNames m).indexOf qb) :=
  resolver_acyclic_spec m hnd hacyc

/-- C1 witness: the two-module bronze mapping resolves to
`[load_a, load_b]` with all the stated properties. -/
theorem C1_witness :
    ∃ l : List SQLModule,
      sortByDependencies wMap = .ok l ∧
      l.Perm (wMap.map Prod.snd) ∧
      l = (sortedNames wMap).filterMap
        (fun n => (wMap.find? (fun p => p.1 == n)).map Prod.snd) ∧
      (sortedNames wMap).Perm (wMap.map Prod.fst) ∧
      (∀ qb mb, (qb, mb) ∈ wMap → ∀ d ∈ mb.get_dependencies, d ∈ wMap.map Prod.fst →
        (sortedNames wMap).indexOf d < (sortedNames wMap).indexOf qb) :=
  C1_resolver_ordering wMap (by decide)
    (acyclic_of_rank wMap wRank (by decide))

/-! ## C2 -/

/-- C2 counterexample: on the cyclic bronze mapping x ↔ y, `execute_layer`
does fail with the circular-dependency error before executing anything, but
the error message is the constant `Circular dependency detected in modules`
— the layer name `bronze` does not occur in it, so the resolution error
does not name the layer. -/
theorem C2_counterexample :
    executeLayer allOkEnv {} cycMap "bronze" false false =
      ([], [], .error (.circularDependency "Circular dependency detected in modules")) ∧
    mentions "Circular dependency detected in modules" "bronze" = false := by
  constructor
  · rfl
  · rfl

/-- C2 (amended): for every mapping whose same-layer enabled set has a
dependency cycle, `execute_layer` fails with the circular-dependency error
carrying the fixed message `Circular dependency detected in modules`
(which does not name the layer), and no module is executed: no console
output, no database events. -/
theorem C2_cycle_error_zero_executed (env : Env) (cfg : TransformationConfig)
    (modules : List (String × SQLModule)) (layer : String)
    (dry_run validate : Bool)
    (hlay : layer ∈ cfg.layers)
    (hnd : ((layerModules modules layer).map Prod.fst).Nodup)
    (hcyc : ¬ AcyclicModules (layerModules modules layer)) :
    executeLayer env cfg modules layer dry_run validate =
      ([], [], .error (.circularDependency "Circular dependency detected in modules")) := by
  have hcont : (cfg.layers.contains layer) = true := by
    simpa using hlay
  have hlme : (layerModules modules layer).isEmpty = false := by
    cases hem : (layerModules modules layer).isEmpty
    · rfl
    · exfalso
      apply hcyc
      apply acyclic_of_no_edges
      have : layerModules modules layer = [] := List.isEmpty_iff.mp hem
      rw [this]
      rfl
  have hsort : sortByDependencies (layerModules modules layer) =
      .error (.circularDependency "Circular dependency detected in modules") := by
    unfold sortByDependencies
    rw [if_pos]
    intro hlen
    apply hcyc
    apply acyclic_of_sortedNames_length _ hnd hlen
  unfold executeLayer
  rw [hcont]
  simp only [Bool.true_eq_false, if_neg, reduceIte]
  rw [hsort]
  have : (layerModules modules layer).isEmpty = true ↔ False := by simp [hlme]
  simp [hlme]

/-- C2 witness: the amended statement at the concrete cyclic mapping. -/
theorem C2_witness :
    executeLayer allOkEnv {} cycMap "bronze" true false =
      ([], [], .error (.circularDependency "Circular dependency detected in modules")) :=
  C2_cycle_error_zero_executed allOkEnv {} cycMap "bronze" true false
    (by decide) (by decide)
    (fun h => h "bronze/x"
      (Relation.TransGen.head
        (show ("bronze/x", "bronze/y") ∈ moduleEdges (layerModules cycMap "bronze")
          by decide)
        (Relation.TransGen.single
          (show ("bronze/y", "bronze/x") ∈ moduleEdges (layerModules cycMap "bronze")
            by decide))))

/-! ## C5 -/

/-- C5: dependency resolution is a pure function of the mapping — equal
inputs give equal outputs — and the emitted order is the initial
zero-in-degree queue followed by the per-iteration enqueue batches, where
the initial queue and every batch follow the mapping's insertion order of
keys (first discovered, first enqueued). -/
theorem C5_deterministic_tiebreak (m₁ m₂ : List (String × SQLModule))
    (heq : m₁ = m₂) (hnd : (m₁.map Prod.fst).Nodup) :
    sortByDependencies m₁ = sortByDependencies m₂ ∧
    sortedNames m₁ = initialQueue m₁ ++ (kahnBatches m₁).flatten ∧
    List.Sublist (initialQueue m₁) (m₁.map Prod.fst) ∧
    (∀ b ∈ kahnBatches m₁, List.Sublist b (m₁.map Prod.fst)) := by
  subst heq
  obtain ⟨h1, h2⟩ := kahnBatches_spec m₁ hnd
  exact ⟨rfl, h1, initialQueue_sublist m₁, h2⟩

/-- C5 witness: the concrete two-module mapping. -/
theorem C5_witness :
    sortByDependencies wMap = sortByDependencies wMap ∧
    sortedNames wMap = initialQueue wMap ++ (kahnBatches wMap).flatten ∧
    List.Sublist (initialQueue wMap) (wMap.map Prod.fst) ∧
    (∀ b ∈ kahnBatches wMap, List.Sublist b (wMap.map Prod.fst)) :=
  C5_deterministic_tiebreak wMap wMap rfl (by decide)

/-! ## C10 -/

/-- C10: a dependency name that is not a key of the set handed to the
resolver — a disabled module's name or a name matching no module —
contributes no edge to the graph; with the rest acyclic, the dependent
module still resolves (its module is in the returned list) and the absent
name never appears in the resolution order, hence is never executed in
that invocation. -/
theorem C10_absent_dependency_omitted (m : List (String × SQLModule))
    (hnd : (m.map Prod.fst).Nodup) (hacyc : AcyclicModules m)
    (qb : String) (mb : SQLModule) (d : String)
    (hb : (qb, mb) ∈ m) (hd : d ∈ mb.get_dependencies)
    (habs : d ∉ m.map Prod.fst) :
    (∀ e ∈ moduleEdges m, e.1 ≠ d ∧ e.2 ≠ d) ∧
    (∃ l, sortByDependencies m = .ok l ∧ mb ∈ l) ∧
    d ∉ sortedNames m := by
  refine ⟨?_, ?_, ?_⟩
  · intro e he
    have hclosed := moduleEdges_closed m e he
    constructor
    · intro hc
      exact habs (hc ▸ hclosed.1)
    · intro hc
      exact habs (hc ▸ hclosed.2)
  · obtain ⟨l, hok, hperm, _, _, _⟩ := resolver_acyclic_spec m hnd hacyc
    refine ⟨l, hok, ?_⟩
    exact hperm.mem_iff.mpr (List.mem_map.mpr ⟨(qb, mb), hb, rfl⟩)
  · intro hc
    exact habs ((sortedNames_main m hnd).2.1 d hc)

/-- C10 witness: the edge from `silver/ghost` is dropped, `silver/a` still
resolves, and `silver/ghost` is not in the order. -/
theorem C10_witness :
    (∀ e ∈ moduleEdges w10Map, e.1 ≠ "silver/ghost" ∧ e.2 ≠ "silver/ghost") ∧
    (∃ l, sortByDependencies w10Map = .ok l ∧ w10Mod ∈ l) ∧
    "silver/ghost" ∉ sortedNames w10Map :=
  C10_absent_dependency_omitted w10Map (by decide)
    (acyclic_of_no_edges w10Map rfl)
    "silver/a" w10Mod "silver/ghost" (by decide) (by decide) (by decide)

/-! ## C3 -/

/-- C3: in live mode, if the SQL execution of the module at position `i`
fails with `e` while every earlier module succeeds, `_execute_modules`
raises the module-execution error carrying the message
`Module execution failed: {qualified name of module i}` and wrapping `e`,
the database-event trace is exactly the traces of modules `0..i-1`
followed by the failing attempt — each executed exactly once, in list
order — and no module after position `i` contributes any event. -/
theorem C3_fail_fast (env : Env) (cfg : TransformationConfig)
    (mods : List SQLModule) (i : Nat) (hi : i < mods.length) (e : OrchError)
    (hfail : (executeSqlFile env cfg (mods.get ⟨i, hi⟩).file_path).2 = .error e)
    (hok : ∀ j (hj : j < i),
      (executeSqlFile env cfg (mods.get ⟨j, Nat.lt_trans hj hi⟩).file_path).2 = .ok ()) :
    executeModules env cfg mods =
      ((mods.take (i + 1)).flatMap (fun mod => (executeSqlFile env cfg mod.file_path).1),
       .error (.moduleExecutionFailed
         ("Module execution failed: " ++ (mods.get ⟨i, hi⟩).get_qualified_name) e)) := by
  induction mods generalizing i with
  | nil => simp at hi
  | cons mod rest ih =>
    cases i with
    | zero =>
      have hfail0 : (executeSqlFile env cfg mod.file_path).2 = .error e := hfail
      unfold executeModules
      simp only [hfail0]
      simp [List.take]
    | succ i' =>
      have hok0 : (executeSqlFile env cfg mod.file_path).2 = .ok () :=
        hok 0 (Nat.succ_pos i')
      have hi' : i' < rest.length := Nat.lt_of_succ_lt_succ hi
      have hfail' : (executeSqlFile env cfg (rest.get ⟨i', hi'⟩).file_path).2 = .error e := by
        simpa using hfail
      have hok' : ∀ j (hj : j < i'),
          (executeSqlFile env cfg (rest.get ⟨j, Nat.lt_trans hj hi'⟩).file_path).2 = .ok () := by
        intro j hj
        have := hok (j + 1) (Nat.succ_lt_succ hj)
        simpa using this
      unfold executeModules
      simp only [hok0]
      rw [ih i' hi' hfail' hok']
      simp [List.take]

/-- C3 witness: module 2 of 3 fails; modules 1 and 2 were attempted in
order and module 3 never runs; the error names `bronze/m_two` and wraps
the engine error. -/
theorem C3_witness :
    executeModules c3Env {} [c3ModA, c3ModB, c3ModC] =
      (([c3ModA, c3ModB].flatMap (fun mod => (executeSqlFile c3Env {} mod.file_path).1)),
       .error (.moduleExecutionFailed ("Module execution failed: " ++ "bronze" ++ "/" ++ "m_two")
         (.engineFailure "Parser Error"))) :=
  C3_fail_fast c3Env {} [c3ModA, c3ModB, c3ModC] 1 (by decide)
    (.engineFailure "Parser Error") rfl
    (by
      intro j hj
      have hj0 : j = 0 := by omega
      subst hj0
      rfl)

/-! ## C6 -/

/-- C6 counterexample: with modules `x` and `y` each declaring one missing
file, validation does fail after collecting both pairs, but the raised
error carries only the count string `2 source file(s) missing` — neither
missing path occurs in it. The complete `(module name, missing path)` list
is printed to the console before the raise, not carried by the error,
refuting "fails with an error carrying the complete list of pairs". -/
theorem C6_counterexample :
    validateSources c6Env [c6ModX, c6ModY] =
      (["Validation failed: Missing source files", "x: missing1.csv", "y: missing2.csv"],
       .error (.missingSourceFiles "2 source file(s) missing")) ∧
    mentions "2 source file(s) missing" "missing1.csv" = false ∧
    mentions "2 source file(s) missing" "missing2.csv" = false := by
  refine ⟨rfl, rfl, rfl⟩

/-- C6 (amended): the validator collects every `(module name, missing
path)` pair across all modules without short-circuiting — a pair is
collected exactly when some module of that name declares the path and the
path does not exist; when any are missing it prints the complete pair list
to the console and then fails with an error whose message carries only the
count of all of them; when none are missing it succeeds with the
informational count line. -/
theorem C6_validation_completeness (env : Env) (mods : List SQLModule) :
    (∀ name path, (name, path) ∈ missingFiles env mods ↔
      ∃ mod ∈ mods, mod.name = name ∧ path ∈ mod.source_files ∧
        env.pathExists path = false) ∧
    (missingFiles env mods ≠ [] →
      validateSources env mods =
        ("Validation failed: Missing source files" ::
          (missingFiles env mods).map (fun p => p.1 ++ ": " ++ p.2),
         .error (.missingSourceFiles
           (toString (missingFiles env mods).length ++ " source file(s) missing")))) ∧
    (missingFiles env mods = [] →
      validateSources env mods =
        (["Validation passed: All source files present for " ++
            toString mods.length ++ " modules"], .ok ())) := by
  refine ⟨?_, ?_, ?_⟩
  · intro name path
    unfold missingFiles
    rw [List.mem_flatMap]
    constructor
    · rintro ⟨mod, hmod, hmem⟩
      obtain ⟨f, hf, hpair⟩ := List.mem_map.mp hmem
      have hff := List.mem_filter.mp hf
      have h1 : mod.name = name := congrArg Prod.fst hpair
      have h2 : f = path := congrArg Prod.snd hpair
      refine ⟨mod, hmod, h1, h2 ▸ hff.1, ?_⟩
      have := hff.2
      rw [h2] at this
      simpa using this
    · rintro ⟨mod, hmod, h1, h2, h3⟩
      refine ⟨mod, hmod, List.mem_map.mpr ⟨path, ?_, by rw [h1]⟩⟩
      rw [List.mem_filter]
      exact ⟨h2, by simp [h3]⟩
  · intro hne
    unfold validateSources
    rw [if_neg (by simpa [List.isEmpty_iff] using hne)]
  · intro hnil
    unfold validateSources
    rw [if_pos (by simpa [List.isEmpty_iff] using hnil)]

/-- C6 witness: with modules `x` and `y` each declaring one missing file,
the failure lists both pairs and the error carries the count 2. -/
theorem C6_witness :
    ((("x", "missing1.csv") ∈ missingFiles c6Env [c6ModX, c6ModY]) ↔
      ∃ mod ∈ [c6ModX, c6ModY], mod.name = "x" ∧ "missing1.csv" ∈ mod.source_files ∧
        c6Env.pathExists "missing1.csv" = false) ∧
    validateSources c6Env [c6ModX, c6ModY] =
      (["Validation failed: Missing source files", "x: missing1.csv", "y: missing2.csv"],
       .error (.missingSourceFiles "2 source file(s) missing")) :=
  ⟨(C6_validation_completeness c6Env [c6ModX, c6ModY]).1 "x" "missing1.csv",
   (C6_validation_completeness c6Env [c6ModX, c6ModY]).2.1 (by decide)⟩

/-! ## C7 -/

/-- C7: with `dry_run = true`, `execute_layer` produces no database event
at all — no connection, no extension load, no SQL — whatever the
environment, configuration, mapping, layer and validation flag; and on the
successful no-validation path its console output is exactly the rendered
execution plan of the resolved modules. -/
theorem C7_dry_run_isolation (env : Env) (cfg : TransformationConfig)
    (modules : List (String × SQLModule)) (layer : String) (validate : Bool) :
    (executeLayer env cfg modules layer true validate).2.1 = [] ∧
    (∀ sorted, sortByDependencies (layerModules modules layer) = .ok sorted →
      (cfg.layers.contains layer) = true →
      (layerModules modules layer).isEmpty = false →
      (validate && (layer == "bronze")) = false →
      executeLayer env cfg modules layer true validate =
        (previewExecution sorted, [], .ok ())) := by
  constructor
  · unfold executeLayer
    repeat' split
    all_goals simp_all
    all_goals repeat' split
    all_goals simp_all
  · intro sorted hsort hcont hne hval
    unfold executeLayer
    rw [hcont]
    simp only [Bool.true_eq_false, if_neg, reduceIte]
    rw [hne]
    simp only [Bool.false_eq_true, if_neg, reduceIte]
    rw [hsort, hval]
    simp

/-- C7 witness: dry-run over the two-module bronze mapping, in an
environment where every SQL execution would fail, performs no database
event and prints the plan. -/
theorem C7_witness :
    (executeLayer c7Env {} wMap "bronze" true true).2.1 = [] ∧
    executeLayer c7Env {} wMap "bronze" true false =
      (previewExecution [wModA, wModB], [], .ok ()) :=
  ⟨(C7_dry_run_isolation c7Env {} wMap "bronze" true).1,
   (C7_dry_run_isolation c7Env {} wMap "bronze" false).2 [wModA, wModB]
     rfl (by decide) (by decide) rfl⟩

/-! ## C4 -/

/-- Shape of a run of the `execute_all` loop over any list of layers:
some prefix of layers succeeds; the database events are exactly those of
the successful prefix plus, when a failure follows, the failing layer's
events, in order; the run's outcome is the first failure, or success when
every layer succeeded. -/
theorem executeLayers_cons (env : Env) (cfg : TransformationConfig)
    (modules : List (String × SQLModule)) (dry_run validate : Bool)
    (layer : String) (rest : List String) :
    executeLayers env cfg modules dry_run validate (layer :: rest) =
      match (executeLayer env cfg modules layer dry_run validate).2.2 with
      | .ok _ =>
        ((layer.toUpper ++ " Layer") ::
            (executeLayer env cfg modules layer dry_run validate).1 ++
            (executeLayers env cfg modules dry_run validate rest).1,
          (executeLayer env cfg modules layer dry_run validate).2.1 ++
            (executeLayers env cfg modules dry_run validate rest).2.1,
          (executeLayers env cfg modules dry_run validate rest).2.2)
      | .error e =>
        ((layer.toUpper ++ " Layer") ::
            (executeLayer env cfg modules layer dry_run validate).1,
          (executeLayer env cfg modules layer dry_run validate).2.1,
          .error e) := rfl

theorem executeLayers_spec (env : Env) (cfg : TransformationConfig)
    (modules : List (String × SQLModule)) (dry_run validate : Bool) :
    ∀ ls : List String,
    ∃ k, k ≤ ls.length ∧
      (∀ j (hj : j < k) (hjl : j < ls.length),
        (executeLayer env cfg modules (ls.get ⟨j, hjl⟩)
          dry_run validate).2.2 = .ok ()) ∧
      ((executeLayers env cfg modules dry_run validate ls).2.1 =
        (ls.take (k + 1)).flatMap
          (fun l => (executeLayer env cfg modules l dry_run validate).2.1)) ∧
      (k = ls.length →
        (executeLayers env cfg modules dry_run validate ls).2.2 = .ok ()) ∧
      (∀ hk : k < ls.length, ∃ e,
        (executeLayer env cfg modules (ls.get ⟨k, hk⟩) dry_run validate).2.2 =
          .error e ∧
        (executeLayers env cfg modules dry_run validate ls).2.2 = .error e) := by
  intro ls
  induction ls with
  | nil =>
    refine ⟨0, le_refl _, ?_, ?_, ?_, ?_⟩
    · intro j hj
      omega
    · simp [executeLayers]
    · intro _
      rfl
    · intro hk
      simp at hk
  | cons layer rest ih =>
    cases hres : (executeLayer env cfg modules layer dry_run validate).2.2 with
    | ok u =>
      obtain ⟨k, hk, hjs, hev, hallok, hfail⟩ := ih
      have hstep : executeLayers env cfg modules dry_run validate (layer :: rest) =
          ((layer.toUpper ++ " Layer") ::
              (executeLayer env cfg modules layer dry_run validate).1 ++
              (executeLayers env cfg modules dry_run validate rest).1,
            (executeLayer env cfg modules layer dry_run validate).2.1 ++
              (executeLayers env cfg modules dry_run validate rest).2.1,
            (executeLayers env cfg modules dry_run validate rest).2.2) := by
        rw [executeLayers_cons, hres]
      refine ⟨k + 1, by simpa using Nat.succ_le_succ hk, ?_, ?_, ?_, ?_⟩
      · intro j hj hjl
        cases j with
        | zero =>
          simpa using hres
        | succ j' =>
          have := hjs j' (Nat.lt_of_succ_lt_succ hj) (Nat.lt_of_succ_lt_succ hjl)
          simpa using this
      · rw [hstep]
        simp only [List.take_succ_cons, List.flatMap_cons]
        rw [hev]
      · intro hlen
        rw [hstep]
        exact hallok (by simpa using hlen)
      · intro hklen
        obtain ⟨e, he1, he2⟩ := hfail (by simpa using hklen)
        refine ⟨e, by simpa using he1, by rw [hstep]; exact he2⟩
    | error e =>
      have hstep : executeLayers env cfg modules dry_run validate (layer :: rest) =
          ((layer.toUpper ++ " Layer") ::
              (executeLayer env cfg modules layer dry_run validate).1,
            (executeLayer env cfg modules layer dry_run validate).2.1,
            .error e) := by
        rw [executeLayers_cons, hres]
      refine ⟨0, by omega, ?_, ?_, ?_, ?_⟩
      · intro j hj
        omega
      · rw [hstep]
        simp
      · intro hlen
        simp at hlen
      · intro hk
        refine ⟨e, hres, ?_⟩
        rw [hstep]

/-- C4: `execute_all` iterates the configured layers in their declared
order; some prefix of layers succeeds, the database events of the whole
run are exactly those of that prefix plus (when a failure follows) the
failing layer's events — so no module of any later layer is ever executed,
and a later layer only contributes once every earlier layer succeeded —
and the run's outcome is the first layer failure, or success when all
layers succeeded. -/
theorem C4_cross_layer_ordering (env : Env) (cfg : TransformationConfig)
    (modules : List (String × SQLModule)) (dry_run validate : Bool) :
    ∃ k, k ≤ cfg.layers.length ∧
      (∀ j (hj : j < k) (hjl : j < cfg.layers.length),
        (executeLayer env cfg modules (cfg.layers.get ⟨j, hjl⟩)
          dry_run validate).2.2 = .ok ()) ∧
      ((executeAll env cfg modules dry_run validate).2.1 =
        (cfg.layers.take (k + 1)).flatMap
          (fun l => (executeLayer env cfg modules l dry_run validate).2.1)) ∧
      (k = cfg.layers.length →
        (executeAll env cfg modules dry_run validate).2.2 = .ok ()) ∧
      (∀ hk : k < cfg.layers.length, ∃ e,
        (executeLayer env cfg modules (cfg.layers.get ⟨k, hk⟩)
          dry_run validate).2.2 = .error e ∧
        (executeAll env cfg modules dry_run validate).2.2 = .error e) :=
  executeLayers_spec env cfg modules dry_run validate cfg.layers

/-- C4 witness: the claim instantiated at a concrete run. -/
theorem C4_witness :
    ∃ k, k ≤ (TransformationConfig.layers {}).length ∧
      (∀ j (hj : j < k) (hjl : j < (TransformationConfig.layers {}).length),
        (executeLayer allOkEnv {} c4Map
          ((TransformationConfig.layers {}).get ⟨j, hjl⟩)
          false false).2.2 = .ok ()) ∧
      ((executeAll allOkEnv {} c4Map false false).2.1 =
        ((TransformationConfig.layers {}).take (k + 1)).flatMap
          (fun l => (executeLayer allOkEnv {} c4Map l false false).2.1)) ∧
      (k = (TransformationConfig.layers {}).length →
        (executeAll allOkEnv {} c4Map false false).2.2 = .ok ()) ∧
      (∀ hk : k < (TransformationConfig.layers {}).length, ∃ e,
        (executeLayer allOkEnv {} c4Map
          ((TransformationConfig.layers {}).get ⟨k, hk⟩) false false).2.2 =
          .error e ∧
        (executeAll allOkEnv {} c4Map false false).2.2 = .error e) :=
  C4_cross_layer_ordering allOkEnv {} c4Map false false

/-! ## Discovery lemmas -/

theorem discoverStems_mem (cfg : TransformationConfig) (layer : String)
    (md : List (String × YamlEntry)) :
    ∀ (stems : List String) (ms : List (String × SQLModule)) (stem : String)
      (mod : SQLModule),
    discoverStems cfg layer md stems = .ok ms →
    stem ∈ stems → moduleFor cfg layer stem md = .ok mod →
    (layer ++ "/" ++ stem, mod) ∈ ms := by
  intro stems
  induction stems with
  | nil =>
    intro ms stem mod _ hstem
    simp at hstem
  | cons s rest ih =>
    intro ms stem mod hok hstem hmod
    unfold discoverStems at hok
    cases hm : moduleFor cfg layer s md with
    | error e =>
      rw [hm] at hok
      simp at hok
    | ok m0 =>
      rw [hm] at hok
      cases hr : discoverStems cfg layer md rest with
      | error e =>
        rw [hr] at hok
        simp at hok
      | ok tail =>
        rw [hr] at hok
        simp only [Except.ok.injEq] at hok
        rcases List.mem_cons.mp hstem with hs | hs
        · subst hs
          rw [hmod] at hm
          simp only [Except.ok.injEq] at hm
          rw [← hok, hm]
          exact List.mem_cons_self _ _
        · rw [← hok]
          exact List.mem_cons_of_mem _ (ih tail stem mod hr hs hmod)

theorem discoverLayers_isOk (fs : DiscoveryFS) (cfg : TransformationConfig) :
    ∀ ls : List String,
    (∃ mods, discoverLayers fs cfg ls = .ok mods) ↔
    (∀ layer ∈ ls, ∃ ms, discoverLayer fs cfg layer = .ok ms) := by
  intro ls
  induction ls with
  | nil =>
    simp [discoverLayers]
  | cons l rest ih =>
    unfold discoverLayers
    constructor
    · rintro ⟨mods, hok⟩
      cases hm : discoverLayer fs cfg l with
      | error e =>
        rw [hm] at hok
        simp at hok
      | ok ms =>
        rw [hm] at hok
        cases hr : discoverLayers fs cfg rest with
        | error e =>
          rw [hr] at hok
          simp at hok
        | ok rests =>
          intro layer hlayer
          rcases List.mem_cons.mp hlayer with hl | hl
          · exact hl ▸ ⟨ms, hm⟩
          · exact (ih.mp ⟨rests, hr⟩) layer hl
    · intro hall
      obtain ⟨ms, hm⟩ := hall l (List.mem_cons_self _ _)
      obtain ⟨rests, hr⟩ := ih.mpr (fun layer hl => hall layer (List.mem_cons_of_mem _ hl))
      refine ⟨ms ++ rests, ?_⟩
      rw [hm, hr]

theorem discoverLayers_mem (fs : DiscoveryFS) (cfg : TransformationConfig) :
    ∀ (ls : List String) (mods : List (String × SQLModule)) (layer : String)
      (ms : List (String × SQLModule)) (p : String × SQLModule),
    discoverLayers fs cfg ls = .ok mods → layer ∈ ls →
    discoverLayer fs cfg layer = .ok ms → p ∈ ms → p ∈ mods := by
  intro ls
  induction ls with
  | nil =>
    intro mods layer ms p _ hlayer
    simp at hlayer
  | cons l rest ih =>
    intro mods layer ms p hok hlayer hml hp
    unfold discoverLayers at hok
    cases hm : discoverLayer fs cfg l with
    | error e =>
      rw [hm] at hok
      simp at hok
    | ok ms0 =>
      rw [hm] at hok
      cases hr : discoverLayers fs cfg rest with
      | error e =>
        rw [hr] at hok
        simp at hok
      | ok rests =>
        rw [hr] at hok
        simp only [Except.ok.injEq] at hok
        rcases List.mem_cons.mp hlayer with hl | hl
        · subst hl
          rw [hml] at hm
          simp only [Except.ok.injEq] at hm
          rw [← hok]
          exact List.mem_append.mpr (Or.inl (hm ▸ hp))
        · rw [← hok]
          exact List.mem_append.mpr (Or.inr (ih rests layer ms p hr hl hml hp))

/-! ## C8 -/

/-- C8: a module whose well-typed metadata sets `enabled: false` is still
discovered — it is in the mapping `discover_modules` returns — but the
per-layer set handed to the resolver and executor contains only enabled
modules, so the disabled module is excluded for every layer. -/
theorem C8_disabled_excluded (fs : DiscoveryFS) (cfg : TransformationConfig)
    (layer stem : String) (mods : List (String × SQLModule))
    (md : List (String × YamlEntry)) (mod : SQLModule)
    (hdisc : discoverModules fs cfg = .ok mods)
    (hl : layer ∈ cfg.layers)
    (hdir : fs.dirExists (cfg.get_layer_path layer) = true)
    (hstem : stem ∈ fs.sqlStems (cfg.get_layer_path layer))
    (hmd : (loadSchemaMetadata fs cfg layer).2 = .mapping md)
    (hmod : moduleFor cfg layer stem md = .ok mod)
    (hdis : mod.enabled = false) :
    ((layer ++ "/" ++ stem), mod) ∈ mods ∧
    mod.enabled = false ∧
    (∀ lay p, p ∈ layerModules mods lay → p.2.enabled = true) ∧
    (∀ lay, ((layer ++ "/" ++ stem), mod) ∉ layerModules mods lay) := by
  have hlayers : discoverLayers fs cfg cfg.layers = .ok mods := by
    unfold discoverModules at hdisc
    cases hroot : fs.rootExists with
    | false =>
      rw [hroot] at hdisc
      simp at hdisc
    | true =>
      rw [hroot] at hdisc
      simpa using hdisc
  obtain ⟨ms, hms⟩ := (discoverLayers_isOk fs cfg cfg.layers).mp ⟨mods, hlayers⟩ layer hl
  have hstems : discoverStems cfg layer md (fs.sqlStems (cfg.get_layer_path layer)) =
      .ok ms := by
    unfold discoverLayer at hms
    rw [hdir] at hms
    simp only [Bool.true_eq_false, if_neg, reduceIte] at hms
    rw [hmd] at hms
    exact hms
  have hmem : ((layer ++ "/" ++ stem), mod) ∈ ms :=
    discoverStems_mem cfg layer md _ ms stem mod hstems hstem hmod
  refine ⟨discoverLayers_mem fs cfg cfg.layers mods layer ms _ hlayers hl hms hmem,
    hdis, ?_, ?_⟩
  · intro lay p hp
    have hpred := (List.mem_filter.mp hp).2
    exact Bool.and_elim_right hpred
  · intro lay hc
    have hpred := (List.mem_filter.mp hc).2
    have hand := Bool.and_elim_right hpred
    rw [hdis] at hand
    exact Bool.false_ne_true hand

/-- C8 witness: `bronze/off` is discovered with `enabled = false` yet never
in any layer's resolved set. -/
theorem C8_witness :
    (("bronze" ++ "/" ++ "off"), c8Mod) ∈ [("bronze/off", c8Mod)] ∧
    c8Mod.enabled = false ∧
    (∀ lay p, p ∈ layerModules [("bronze/off", c8Mod)] lay → p.2.enabled = true) ∧
    (∀ lay, (("bronze" ++ "/" ++ "off"), c8Mod) ∉
      layerModules [("bronze/off", c8Mod)] lay) :=
  C8_disabled_excluded c8FS {} "bronze" "off" [("bronze/off", c8Mod)]
    [("off", .fields { enabled := false })] c8Mod
    rfl (by decide) rfl (by decide) rfl rfl rfl

/-! ## C9 -/

end DataLake
